import Mathlib

/-!
Verification of the libsass parser (src/parser.cpp) against its specification.

The development shallowly embeds the parser's data model and the operations the
claims concern: the scope stack and its nesting guards, the byte-order-mark
reader, expression/list construction (singleton unwrapping, bracketed lists,
map literals), the delayed-division folding of binary expressions, the
`@if`/`@else` chain attachment, the number lexing helpers, and the speculative
lookahead scans.  Machine strings are modelled as `List Char`, buffers of bytes
as `List Nat`, and the reference-counted AST as inductive types.
-/

namespace LibSass

/-- Grammatical scopes held on the parser's scope stack (`Sass::Scope`).
The enumeration is modelled from the spec's scope set §3:
{Root, Rules, Properties, Mixin, Function, Control, Media, AtRoot}. -/
inductive Scope where
  | Root
  | Mixin
  | Function
  | Media
  | Control
  | Properties
  | Rules
  | AtRoot
deriving DecidableEq, Repr

/-- `stack.back()` of the scope stack.  The stack is modelled as a list with
`push_back` appending at the end, so `back` is the last element.  Modelled from
the spec: the parser's scope stack always starts holding `Root`, so `back` on
the stack of a running parse is never called on an empty stack; we default to
`Root`. -/
def stackBack (stack : List Scope) : Scope :=
  (stack.getLast?).getD Scope.Root

/-- The `@import` nesting guard of `Parser::parse_block_node`
(parser.cpp:232-238): `parent` is the top of the scope stack (`Rules` when the
stack is empty); the error is raised exactly when `parent` is none of
Function/Root/Rules/Media and the import target is not a `url(` form
(`peek_css<uri_prefix>` fails).  Returns the error message raised, if any. -/
def importGuard (stack : List Scope) (peekUriForm : Bool) : Option String :=
  let parent := (stack.getLast?).getD Scope.Rules
  if parent ≠ Scope.Function ∧ parent ≠ Scope.Root ∧
     parent ≠ Scope.Rules ∧ parent ≠ Scope.Media then
    if ¬ peekUriForm then
      some "Import directives may not be used within control directives or mixins."
    else none
  else none

/-- `Util::normalize_underscores`.  Modelled from the spec §4.2: `_` and `-`
are treated as equivalent in variable, mixin and function names, the canonical
form using `-`; the helper (in util.cpp, outside the parser source) replaces
each underscore by a dash. -/
def normalize_underscores (s : String) : String :=
  ⟨s.data.map (fun c => if c = '_' then '-' else c)⟩

/-- Result of `Parser::parse_function_call`: either a parse error or a
`Function_Call` node (name and an abstract handle for the parsed arguments). -/
structure Function_Call where
  name : String
  args : Nat
deriving DecidableEq, Repr

/-- `Parser::parse_function_call` (parser.cpp:1991-2002): after lexing the
identifier `name`, the parse errors when the normalized name is
"content-exists" while the top of the scope stack is not `Mixin`; otherwise a
`Function_Call` node is built from the name and the parsed arguments (the
argument sub-parse is abstracted to the handle it produces). -/
def parse_function_call (name : String) (stack : List Scope) (args : Nat) :
    Except String Function_Call :=
  if normalize_underscores name = "content-exists" ∧ stackBack stack ≠ Scope.Mixin then
    .error "Cannot call content-exists() except within a mixin."
  else
    .ok ⟨name, args⟩

/-! ### Byte-order marks (`Parser::read_bom`, `check_bom_chars`)

The BOM byte sequences are constants of the repository defined outside the
parser source; their values are modelled from the spec §6 (the standard byte
sequences of the named encodings). -/

def utf_8_bom : List Nat := [0xEF, 0xBB, 0xBF]

def utf_16_bom_be : List Nat := [0xFE, 0xFF]

def utf_16_bom_le : List Nat := [0xFF, 0xFE]

def utf_32_bom_be : List Nat := [0x00, 0x00, 0xFE, 0xFF]

def utf_32_bom_le : List Nat := [0xFF, 0xFE, 0x00, 0x00]

def utf_7_bom_1 : List Nat := [0x2B, 0x2F, 0x76, 0x38]

def utf_7_bom_2 : List Nat := [0x2B, 0x2F, 0x76, 0x39]

def utf_7_bom_3 : List Nat := [0x2B, 0x2F, 0x76, 0x2B]

def utf_7_bom_4 : List Nat := [0x2B, 0x2F, 0x76, 0x2F]

def utf_7_bom_5 : List Nat := [0x2B, 0x2F, 0x76, 0x38, 0x2D]

def utf_1_bom : List Nat := [0xF7, 0x64, 0x4C]

def utf_ebcdic_bom : List Nat := [0xDD, 0x73, 0x66, 0x73]

def scsu_bom : List Nat := [0x0E, 0xFE, 0xFF]

def bocu_1_bom : List Nat := [0xFB, 0xEE, 0x28]

def gb_18030_bom : List Nat := [0x84, 0x31, 0x95, 0x33]

/-- `check_bom_chars` (parser.cpp:2820-2828): returns 0 when fewer than
`bom.length` bytes remain; otherwise compares the first `bom.length` bytes of
the buffer against the BOM, returning the BOM length on a full match and 0 on
the first mismatch. -/
def check_bom_chars (src : List Nat) (bom : List Nat) : Nat :=
  if bom.length > src.length then 0
  else if src.take bom.length = bom then bom.length else 0

/-- `Parser::read_bom` (parser.cpp:2762-2818): switch on the first byte of the
buffer (the buffer is NUL-terminated, so an empty buffer reads byte 0), try
the BOMs starting with that byte, and either fail naming the detected encoding
(any recognized non-UTF-8 BOM) or return the number of bytes to skip
(`position += skip`): 3 for a UTF-8 BOM, 0 when no BOM matched. -/
def read_bom (src : List Nat) : Except String Nat :=
  let b0 := src.headD 0
  let r : Nat × String × Bool :=
    if b0 = 0xEF then (check_bom_chars src utf_8_bom, "UTF-8", true)
    else if b0 = 0xFE then (check_bom_chars src utf_16_bom_be, "UTF-16 (big endian)", false)
    else if b0 = 0xFF then
      let s1 := check_bom_chars src utf_16_bom_le
      let s := s1 + (if s1 ≠ 0 then check_bom_chars src utf_32_bom_le else 0)
      (s, if s = 2 then "UTF-16 (little endian)" else "UTF-32 (little endian)", false)
    else if b0 = 0x00 then (check_bom_chars src utf_32_bom_be, "UTF-32 (big endian)", false)
    else if b0 = 0x2B then
      (check_bom_chars src utf_7_bom_1 |||
        (check_bom_chars src utf_7_bom_2 |||
          (check_bom_chars src utf_7_bom_3 |||
            (check_bom_chars src utf_7_bom_4 |||
              check_bom_chars src utf_7_bom_5))), "UTF-7", false)
    else if b0 = 0xF7 then (check_bom_chars src utf_1_bom, "UTF-1", false)
    else if b0 = 0xDD then (check_bom_chars src utf_ebcdic_bom, "UTF-EBCDIC", false)
    else if b0 = 0x0E then (check_bom_chars src scsu_bom, "SCSU", false)
    else if b0 = 0xFB then (check_bom_chars src bocu_1_bom, "BOCU-1", false)
    else if b0 = 0x84 then (check_bom_chars src gb_18030_bom, "GB-18030", false)
    else (0, "", false)
  if r.1 > 0 ∧ ¬ r.2.2 then
    .error ("only UTF-8 documents are currently supported; your document appears to be " ++ r.2.1)
  else
    .ok r.1

/-- The non-UTF-8 BOMs recognized by `read_bom`, paired with the encoding name
the error message reports for a buffer that starts with that BOM and carries
no longer recognized BOM. -/
def rejectedBoms : List (List Nat × String) :=
  [(utf_16_bom_be, "UTF-16 (big endian)"),
   (utf_32_bom_le, "UTF-32 (little endian)"),
   (utf_32_bom_be, "UTF-32 (big endian)"),
   (utf_7_bom_1, "UTF-7"), (utf_7_bom_2, "UTF-7"), (utf_7_bom_3, "UTF-7"),
   (utf_7_bom_4, "UTF-7"), (utf_7_bom_5, "UTF-7"),
   (utf_1_bom, "UTF-1"),
   (utf_ebcdic_bom, "UTF-EBCDIC"),
   (scsu_bom, "SCSU"),
   (bocu_1_bom, "BOCU-1"),
   (gb_18030_bom, "GB-18030")]

/-- All BOM byte sequences `read_bom` recognizes (UTF-8 included). -/
def allBoms : List (List Nat) :=
  utf_8_bom :: utf_16_bom_le :: (rejectedBoms.map Prod.fst)

/-! ### Expressions and the delayed-division fold -/

/-- `enum Sass_OP`: the binary operators of the expression grammar. -/
inductive Sass_OP where
  | AND
  | OR
  | EQ
  | NEQ
  | GT
  | GTE
  | LT
  | LTE
  | ADD
  | SUB
  | MUL
  | DIV
  | MOD
deriving DecidableEq, Repr

/-- `struct Operand`: an operator together with the flags recording whether
whitespace (css comments/spaces) preceded and followed it. -/
structure Operand where
  operand : Sass_OP
  ws_before : Bool
  ws_after : Bool
deriving DecidableEq, Repr

/-- List separators (`enum Sass_Separator`): space, comma, or the hash
separator used for `Map` values. -/
inductive Separator where
  | space
  | comma
  | hash
deriving DecidableEq, Repr

/-- The expression AST nodes the claims touch, as tagged variants of the
source's `Expression` hierarchy.  `number` is a `Number` node (exact rational
value, unit token, leading-zero flag); `string_schema` abstracts a
`String_Schema` to its `has_interpolants()` answer; `binary` is a
`Binary_Expression`; `list` is a `List` node (separator, `is_bracketed` flag,
items); `atom` stands for any other expression kind, identified by an opaque
id together with whether its source text begins with `(` (used by the
`has_paren` peek of `parse_bracket_list`).  Every node carries its
`is_delayed` flag. -/
inductive Expression where
  | number (value : ℚ) (unit : List Char) (zero : Bool) (delayed : Bool)
  | string_constant (s : List Char) (delayed : Bool)
  | string_schema (hasInterpolants : Bool) (delayed : Bool)
  | binary (op : Operand) (lhs rhs : Expression) (delayed : Bool)
  | list (sep : Separator) (bracketed : Bool) (items : List Expression) (delayed : Bool)
  | atom (id : Nat) (startsParen : Bool) (delayed : Bool)
deriving Repr

/-- `Expression::is_delayed()`. -/
def Expression.is_delayed : Expression → Bool
  | .number _ _ _ d => d
  | .string_constant _ d => d
  | .string_schema _ d => d
  | .binary _ _ _ d => d
  | .list _ _ _ d => d
  | .atom _ _ d => d

/-- `Expression::is_delayed(bool)`: the plain setter for the node's own
delayed flag. -/
def Expression.with_delayed : Expression → Bool → Expression
  | .number v u z _, d => .number v u z d
  | .string_constant s _, d => .string_constant s d
  | .string_schema h _, d => .string_schema h d
  | .binary op l r _, d => .binary op l r d
  | .list sep br xs _, d => .list sep br xs d
  | .atom i p _, d => .atom i p d

/-- `Expression::set_delayed(bool)`.  Modelled from the spec (the AST classes
live outside the parser source): the delayed boolean is carried on the node
itself ("carry a boolean through number and binary nodes", §9), and per the
source comment at parser.cpp:1044-1045 setting it on a `List` does not
propagate to the list's children, so the setter updates only the node's own
flag. -/
def Expression.set_delayed (e : Expression) (d : Bool) : Expression :=
  e.with_delayed d

/-- Is the node a `Binary_Expression` (`Cast<Binary_Expression>` succeeds)? -/
def Expression.isBinary : Expression → Bool
  | .binary _ _ _ _ => true
  | _ => false

/-- Is the node a `List` (`Cast<List>` succeeds)? -/
def Expression.isList : Expression → Bool
  | .list _ _ _ _ => true
  | _ => false

/-- Default expression used to model an out-of-range `std::vector` access
(never reached on the well-formed inputs the parser produces). -/
def dfltExpr : Expression := .atom 0 false false

/-- Default operand for an out-of-range access. -/
def dfltOp : Operand := ⟨Sass_OP.AND, false, false⟩

/-- Does `ops[0]` belong to the operator set of the interpolation special case
at parser.cpp:2844-2854? -/
def schemaFoldOp (op : Sass_OP) : Bool :=
  op = .EQ ∨ op = .ADD ∨ op = .DIV ∨ op = .MUL ∨ op = .NEQ ∨
  op = .LT ∨ op = .GT ∨ op = .LTE ∨ op = .GTE

/-- The final step of `fold_operands` (parser.cpp:2886-2891): when the loop
did not return early and produced a `Binary_Expression` one of whose sides is
itself a `Binary_Expression`, `set_delayed(false)` is applied to the result
("nested binary expression are never to be delayed").  The boolean is `true`
when the loop returned early, skipping this reset. -/
def fold_finish : Expression × Bool → Expression
  | (e, true) => e
  | (e, false) =>
    match e with
    | .binary op l r d =>
      if l.isBinary ∨ r.isBinary then (Expression.binary op l r d).set_delayed false
      else .binary op l r d
    | e0 => e0

mutual

/-- `Parser::fold_operands(base, operands, ops, i)` (parser.cpp:2839-2892).
On entry, a base that is a `String_Schema` with interpolants triggers the
special case when `i + 1 < operands.size()` and `ops[0]` is in the folding
set: the tail is folded recursively and hung to the right of the schema.
Otherwise the loop `fold_loop` folds the remaining operands left to right;
when the loop runs to completion (no early return) the final
nested-binary-expression reset of parser.cpp:2886-2890 clears the delayed
flag of a binary result whose left or right side is itself binary. -/
def fold_operands (base : Expression) (operands : List Expression)
    (ops : List Operand) (i : Nat) : Expression :=
  match base with
  | .string_schema true d =>
    if h : i + 1 < operands.length ∧ schemaFoldOp (ops.getD 0 dfltOp).operand then
      let rhs := fold_operands (operands.getD i dfltExpr) operands ops (i + 1)
      .binary (ops.getD 0 dfltOp) (.string_schema true d) rhs false
    else
      fold_finish (fold_loop (.string_schema true d) operands ops i)
  | b =>
    fold_finish (fold_loop b operands ops i)
termination_by (operands.length + 1 - i) * 2 + 1

/-- The `for` loop of `fold_operands` (parser.cpp:2863-2885).  Returns the
folded expression together with `true` when the loop returned early (the
interpolated-schema operand cases, which skip the final reset).  A freshly
built `Binary_Expression` starts with `is_delayed = false`; after each
ordinary fold step, a `DIV` node whose two sides are both delayed is marked
delayed (parser.cpp:2881-2884). -/
def fold_loop (base : Expression) (operands : List Expression)
    (ops : List Operand) (i : Nat) : Expression × Bool :=
  if _h : i < operands.length then
    let oi := operands.getD i dfltExpr
    let op := ops.getD i dfltOp
    match oi with
    | .string_schema true d =>
      if i + 1 < operands.length then
        let rhs0 := fold_operands (operands.getD (i + 1) dfltExpr) operands ops (i + 2)
        let rhs := .binary op (.string_schema true d) rhs0 false
        (.binary op base rhs false, true)
      else
        (.binary op base (.string_schema true d) false, true)
    | o =>
      let b := Expression.binary op base o false
      let b2 := if op.operand = .DIV ∧ base.is_delayed ∧ o.is_delayed
                then b.with_delayed true else b
      fold_loop b2 operands ops (i + 1)
  else
    (base, false)
termination_by (operands.length + 1 - i) * 2

end

/-! ### Token-level model of the list, map and bracket-list grammar

The expression sub-parses below the list levels (`parse_disjunction` and the
precedence levels under it) are abstracted to the expression each of them
produces: a token stream alternates expression atoms with the punctuation that
the list machinery itself inspects.  All non-atom tokens are exactly the
`list_terminator` alternatives the source peeks for (`;`, `}`, `{`, `)`, `]`,
`:`, end of input, `...`, `!default`, `!global`), except the comma, which only
terminates a space list (`space_list_terminator` = `,` or `list_terminator`). -/

/-- A token of the list-level stream: a parsed expression atom (carrying
whether its source text starts with `(`, for the `has_paren` peek), or one of
the punctuation tokens the list machinery branches on.  `stop` stands for the
remaining `list_terminator` alternatives (`}`, `{`, `...`, `!default`,
`!global`). -/
inductive Token where
  | atom (e : Expression) (startsParen : Bool)
  | comma
  | colon
  | rparen
  | rbracket
  | semicolon
  | stop
deriving Repr

/-- Does the token match `list_terminator` (parser.cpp top lexer table)?  The
comma does not; every other punctuation token does. -/
def isListTerm : Token → Bool
  | .atom _ _ => false
  | .comma => false
  | _ => true

/-- `peek_css<list_terminator>` at the head of the stream; end of input also
matches (`end_of_file` is a `list_terminator` alternative). -/
def peekListTerm (ts : List Token) : Bool :=
  match ts with
  | [] => true
  | t :: _ => isListTerm t

/-- Does the stream head end a space list (`space_list_terminator` = comma or
`list_terminator`), i.e. is it anything but a further expression atom? -/
def peekSpaceTerm (ts : List Token) : Bool :=
  match ts with
  | [] => true
  | .atom _ _ :: _ => false
  | _ => true

/-- Parse errors: `css_error(msg, " after ", ": expected <e>, was ")` carries
the expected-token text (the surrounding source context of the real message is
not modelled), and `Parser::error(msg)` carries its full message. -/
inductive ParseErr where
  | cssError (expected : String)
  | fatal (msg : String)
deriving DecidableEq, Repr

/-- The expression parse below the list levels (`Parser::parse_disjunction`,
parser.cpp:1094), abstracted: it consumes one atom token and yields the
expression that sub-parse produced; on anything else the sub-parse fails (the
source would raise a css_error deeper in the factor parser). -/
def parse_disjunction : List Token → Except ParseErr (Expression × List Token)
  | .atom e _ :: rest => .ok (e, rest)
  | _ => .error (.cssError "expression (e.g. 1px, bold)")

/-- Collect the maximal run of further atoms (the body of the space-list loop,
parser.cpp:1081-1087, with `parse_disjunction` abstracted as above). -/
def takeAtoms : List Token → List Expression × List Token
  | .atom e _ :: rest =>
    let (es, r) := takeAtoms rest
    (e :: es, r)
  | ts => ([], ts)

/-- `Parser::parse_space_list` (parser.cpp:1069-1091): parse one disjunction;
if the next token terminates a space list, return that single expression
unwrapped; otherwise collect the following disjunctions into a
space-separated `List` node. -/
def parse_space_list (ts : List Token) : Except ParseErr (Expression × List Token) :=
  match parse_disjunction ts with
  | .error e => .error e
  | .ok (disj1, rest) =>
    if peekSpaceTerm rest then .ok (disj1, rest)
    else
      let (es, r) := takeAtoms rest
      .ok (.list .space false (disj1 :: es) false, r)

theorem takeAtoms_length (ts : List Token) : (takeAtoms ts).2.length ≤ ts.length := by
  induction ts with
  | nil => simp [takeAtoms]
  | cons t rest ih =>
    cases t <;> simp [takeAtoms] <;> omega

theorem parse_space_list_length {ts : List Token} {e : Expression} {r : List Token}
    (h : parse_space_list ts = .ok (e, r)) : r.length < ts.length := by
  cases ts with
  | nil => simp [parse_space_list, parse_disjunction] at h
  | cons t rest =>
    cases t with
    | atom a sp =>
      simp only [parse_space_list, parse_disjunction] at h
      cases hp : peekSpaceTerm rest with
      | false =>
        simp [hp] at h
        obtain ⟨-, h2⟩ := h
        have h3 := takeAtoms_length rest
        subst h2
        simp only [List.length_cons]
        omega
      | true =>
        simp [hp] at h
        obtain ⟨-, h2⟩ := h
        subst h2
        simp only [List.length_cons]
        omega
    | comma => simp [parse_space_list, parse_disjunction] at h
    | colon => simp [parse_space_list, parse_disjunction] at h
    | rparen => simp [parse_space_list, parse_disjunction] at h
    | rbracket => simp [parse_space_list, parse_disjunction] at h
    | semicolon => simp [parse_space_list, parse_disjunction] at h
    | stop => simp [parse_space_list, parse_disjunction] at h

/-- The comma loop shared by `parse_comma_list` (parser.cpp:1055-1062) and
`parse_bracket_list` (parser.cpp:1007-1014): while a comma is lexed, stop
(with the comma consumed) when a `list_terminator` follows — this tolerates a
trailing comma — and otherwise append another space list. -/
def commaLoop (acc : List Expression) (ts : List Token) :
    Except ParseErr (List Expression × List Token) :=
  match h : ts with
  | .comma :: rest =>
    if peekListTerm rest then .ok (acc, rest)
    else
      match hp : parse_space_list rest with
      | .error e => .error e
      | .ok (e, r) =>
        have : r.length < rest.length := parse_space_list_length hp
        commaLoop (acc ++ [e]) r
  | _ => .ok (acc, ts)
termination_by ts.length
decreasing_by simp [h]; omega

/-- `Parser::parse_comma_list(delayed)` (parser.cpp:1029-1065): an immediate
`list_terminator` yields an empty (space-separated, unbracketed) `List`; a
single space list not followed by a comma is returned unwrapped, undelayed
via `set_delayed(false)` unless `delayed` was requested; otherwise the comma
loop builds a comma-separated `List`. -/
def parse_comma_list (delayed : Bool) (ts : List Token) :
    Except ParseErr (Expression × List Token) :=
  if peekListTerm ts then .ok (.list .space false [] false, ts)
  else
    match parse_space_list ts with
    | .error e => .error e
    | .ok (lst, rest) =>
      match rest with
      | .comma :: _ =>
        match commaLoop [lst] rest with
        | .error e => .error e
        | .ok (items, r) => .ok (.list .comma false items false, r)
      | _ => .ok (if delayed then lst else lst.set_delayed false, rest)

/-- `Parser::parse_list(delayed = false)` (parser.cpp:1022-1026). -/
def parse_list (delayed : Bool) (ts : List Token) :
    Except ParseErr (Expression × List Token) :=
  parse_comma_list delayed ts

/-- The `has_paren` peek of `parse_bracket_list` (parser.cpp:986): does a `(`
follow the opening bracket?  In the token stream, whether the first atom's
source text starts with `(`. -/
def peekParen (ts : List Token) : Bool :=
  match ts with
  | .atom _ sp :: _ => sp
  | _ => false

/-- `Parser::parse_bracket_list` (parser.cpp:975-1017), entered after the `[`
was lexed: an immediate `list_terminator` yields an empty bracketed list;
`has_paren` records whether a `(` follows the bracket; a single space list
not followed by a comma is returned with its `is_bracketed` flag set when it
was already a plain list (and is wrapped into a fresh singleton bracketed
list when it is not a list, is already bracketed, or `has_paren` held);
otherwise the comma loop builds a bracketed comma-separated `List`. -/
def parse_bracket_list (ts : List Token) : Except ParseErr (Expression × List Token) :=
  if peekListTerm ts then .ok (.list .space true [] false, ts)
  else
    match parse_space_list ts with
    | .error e => .error e
    | .ok (lst, rest) =>
      match rest with
      | .comma :: _ =>
        match commaLoop [lst] rest with
        | .error e => .error e
        | .ok (items, r) => .ok (.list .comma true items false, r)
      | _ =>
        match lst with
        | .list sep br items d =>
          if br || peekParen ts then .ok (.list .space true [.list sep br items d] false, rest)
          else .ok (.list sep true items d, rest)
        | e0 => .ok (.list .space true [e0] false, rest)

/-- Is the token the closing parenthesis? (`peek_css<exactly<')'>>`.) -/
def Token.isRParen : Token → Bool
  | .rparen => true
  | _ => false

/-- The key/value loop of `Parser::parse_map` (parser.cpp:951-966): while a
comma is lexed, a `)` immediately after tolerates the trailing comma; then a
space-list key, a mandatory `:` (else a css_error expecting ":"), and a
space-list value are appended. -/
def mapLoop (acc : List Expression) (ts : List Token) :
    Except ParseErr (List Expression × List Token) :=
  match h : ts with
  | .comma :: rest =>
    if (rest.headD .stop).isRParen then .ok (acc, rest)
    else
      match hk : parse_space_list rest with
      | .error e => .error e
      | .ok (key, r1) =>
        match hr : r1 with
        | .colon :: r2 =>
          match hv : parse_space_list r2 with
          | .error e => .error e
          | .ok (value, r3) =>
            mapLoop (acc ++ [key, value]) r3
        | _ => .error (.cssError "\":\"")
  | _ => .ok (acc, ts)
termination_by ts.length
decreasing_by
  have h1 := parse_space_list_length hk
  have h2 := parse_space_list_length hv
  simp [h, hr, List.length_cons] at *
  omega

/-- Is the expression a comma-separated `List`
(`Cast<List>(key)` succeeded and `separator() == SASS_COMMA`)? -/
def Expression.isCommaList : Expression → Bool
  | .list .comma _ _ _ => true
  | _ => false

/-- Is the expression a `List` node whose `is_bracketed` flag is set? -/
def Expression.isBracketedList : Expression → Bool
  | .list _ br _ _ => br
  | _ => false

/-- `Parser::parse_map` (parser.cpp:931-973), entered after the `(` was lexed
by `parse_factor`: parse a full list as the prospective first key; when no `:`
follows, that value is returned unchanged (not a map); a first key that is a
comma-separated list is a css_error expecting ")"; otherwise a space-list
value follows and the key/value loop builds a hash-separated `List`
(`SASS_HASH`) of alternating keys and values. -/
def parse_map (ts : List Token) : Except ParseErr (Expression × List Token) :=
  match parse_list false ts with
  | .error e => .error e
  | .ok (key, r1) =>
    match r1 with
    | .colon :: r2 =>
      if key.isCommaList then .error (.cssError "\")\"")
      else
        match parse_space_list r2 with
        | .error e => .error e
        | .ok (value, r3) =>
          match mapLoop [key, value] r3 with
          | .error e => .error e
          | .ok (items, r) => .ok (.list .hash false items false, r)
    | _ => .ok (key, r1)

/-! ### Statement-level model of block-node dispatch (`parse_block_node`)

Statement parsing below the dispatch level is abstracted: the bodies of the
`@if`/`@else` blocks appear pre-parsed (`parse_block` is a recursive call that
returns the statement list of the braced block), and the statements that do
not interact with the claims appear as opaque nodes. -/

/-- Statement nodes: an `If` node (predicate, consequent block, optional
alternative block, parser.cpp:2040) or any other statement (opaque). -/
inductive Stmt where
  | ifStmt (pred : Expression) (body : List Stmt) (alternative : Option (List Stmt))
  | plain (id : Nat)
deriving Repr

/-- Statement-level tokens of a block's content, as dispatched by
`Parser::parse_block_node` (parser.cpp:206-323): an `@if <pred> { body }`
head, the `@else if <pred> { body }` and `@else { body }` continuations
(both begin with the bytes `@else`, so both match `exactly<else_kwd>` in
dispatch position), an `@charset "...";` directive, or any other statement.
Block bodies are abstracted to the statement lists their recursive
`parse_block` calls produce. -/
inductive BlockTok where
  | ifTok (pred : Expression) (body : List Stmt)
  | elseifTok (pred : Expression) (body : List Stmt)
  | elseTok (body : List Stmt)
  | charsetTok
  | stmtTok (s : Stmt)
deriving Repr

/-- `Parser::parse_if_directive` (parser.cpp:2021-2041), after `@if`'s
predicate and block: an immediately following `@else if` recurses and wraps
the inner `If` in a fresh alternative block; an immediately following `@else`
parses its block as the alternative; otherwise the alternative stays unset. -/
def parse_if_directive (pred : Expression) (body : List Stmt) (ts : List BlockTok) :
    Stmt × List BlockTok :=
  match ts with
  | .elseifTok p2 b2 :: rest =>
    let (inner, r) := parse_if_directive p2 b2 rest
    (.ifStmt pred body (some [inner]), r)
  | .elseTok be :: rest => (.ifStmt pred body (some be), rest)
  | _ => (.ifStmt pred body none, ts)

theorem parse_if_directive_length (pred : Expression) (body : List Stmt)
    (ts : List BlockTok) : (parse_if_directive pred body ts).2.length ≤ ts.length := by
  induction ts generalizing pred body with
  | nil => simp [parse_if_directive]
  | cons t rest ih =>
    cases t with
    | elseifTok p2 b2 =>
      simp only [parse_if_directive]
      have := ih p2 b2
      simp only [List.length_cons]
      omega
    | elseTok be => simp [parse_if_directive]
    | ifTok p b => simp [parse_if_directive]
    | charsetTok => simp [parse_if_directive]
    | stmtTok s => simp [parse_if_directive]

/-- The statement loop of `Parser::parse_block_nodes`/`parse_block_node`
(parser.cpp:175-323) restricted to the dispatch behavior the claims concern:
an `@if` parses via `parse_if_directive` (consuming any immediately following
`@else if`/`@else` continuations); a token starting with `@else` in dispatch
position raises "Invalid CSS: @else must come after @if" (parser.cpp:293);
an `@charset` directive is lexed but appends nothing to the block
(parser.cpp:290-291, 630-639); any other statement is appended. -/
def parse_block_nodes (ts : List BlockTok) : Except ParseErr (List Stmt) :=
  match h : ts with
  | [] => .ok []
  | .ifTok p b :: rest =>
    match hd : parse_if_directive p b rest with
    | (s, r) =>
      match parse_block_nodes r with
      | .error e => .error e
      | .ok ss => .ok (s :: ss)
  | .elseifTok _ _ :: _ => .error (.fatal "Invalid CSS: @else must come after @if")
  | .elseTok _ :: _ => .error (.fatal "Invalid CSS: @else must come after @if")
  | .charsetTok :: rest =>
    match parse_block_nodes rest with
    | .error e => .error e
    | .ok ss => .ok ss
  | .stmtTok s :: rest =>
    match parse_block_nodes rest with
    | .error e => .error e
    | .ok ss => .ok (s :: ss)
termination_by ts.length
decreasing_by
  all_goals simp [h, List.length_cons]
  have h1 := parse_if_directive_length p b rest
  have h2 : (parse_if_directive p b rest).2 = r := by rw [hd]
  rw [h2] at h1
  omega

/-! ### Speculative lookahead (`lookahead_for_selector`, `lookahead_for_value`)

The buffer is a NUL-terminated byte sequence; reads past its end yield the
NUL character.  The two prelexer "big regex" matchers (`re_selector_list` and
the non-greedy token scan of `lookahead_for_value`, defined in the prelexer
outside the parser source) are abstracted as functions from a position to the
optional end position of a match, as `peek` produces.  The parser's mutable
cursor state is threaded explicitly: the embedding of each C++ statement of
the two scans shows they write only to the local result struct. -/

/-- Read the buffer at an index; the NUL terminator (and, as in C, any read
past it) yields `'\0'`. -/
def charAt (buffer : List Char) (i : Nat) : Char :=
  buffer.getD i '\x00'

/-- Is the character a whitespace byte (`Prelexer::space`)? -/
def isSpaceChar (c : Char) : Bool :=
  c = ' ' ∨ c = '\t' ∨ c = '\n' ∨ c = '\x0b' ∨ c = '\x0c' ∨ c = '\r'

/-- The mutable cursor state of `Parser` the lookahead claims concern:
`position` (byte index) and the `pstate` position tracker (line, column). -/
structure PState where
  position : Nat
  pstate_line : Nat
  pstate_column : Nat
deriving DecidableEq, Repr

/-- `struct Lookahead` (value-initialized: null pointers, false flags). -/
structure Lookahead where
  found : Option Nat
  position : Option Nat
  lookahead_error : Option Nat
  has_interpolants : Bool
  is_custom_property : Bool
  parsable : Bool
deriving DecidableEq, Repr

/-- The scanning `while (p < q)` loop of `lookahead_for_selector`
(parser.cpp:2636-2649): detects `#{` (setting `has_interpolants` and
breaking), tracks backslash escapes, and on each unescaped `:` re-decides
`is_custom_property` from `could_be_property`, `p+1 == q`, or a following
space.  Returns the final (has_interpolants, is_custom_property) pair. -/
def selScan (buffer : List Char) (q : Nat) (couldProp : Bool) (p : Nat)
    (couldEsc : Bool) (custom : Bool) : Bool × Bool :=
  if p < q then
    let c := charAt buffer p
    if c = '#' ∧ charAt buffer (p + 1) = '{' then (true, custom)
    else
      let custom2 := if c = ':' ∧ ¬ couldEsc
        then (couldProp || (p + 1 = q) || isSpaceChar (charAt buffer (p + 1)))
        else custom
      selScan buffer q couldProp (p + 1) (c = '\\') custom2
  else (false, custom)
termination_by q - p

/-- `Parser::lookahead_for_selector(start)` (parser.cpp:2621-2671).  The
`re_selector_list` peek is the abstracted `matchSelList`; `start` models the
`const char* start` argument (defaulting to the parser's own position).  The
function returns the (unchanged) parser state together with the computed
`Lookahead`. -/
def lookahead_for_selector (buffer : List Char) (matchSelList : Nat → Option Nat)
    (st : PState) (start : Option Nat) : PState × Lookahead :=
  let p := start.getD st.position
  let rv :=
    match matchSelList p with
    | some q =>
      let couldProp := charAt buffer p = '-' ∧ charAt buffer (p + 1) = '-'
      let sc := selScan buffer q couldProp p false false
      let found : Option Nat :=
        if charAt buffer q = '{' then some q
        else if charAt buffer q = '(' then some q
        else none
      let err : Option Nat :=
        if found.isSome ∨ charAt buffer q = '\x00' then none else some q
      { found := found, position := some q, lookahead_error := err,
        has_interpolants := sc.1, is_custom_property := sc.2, parsable := ¬ sc.1 }
    | none =>
      { found := none, position := none, lookahead_error := some p,
        has_interpolants := false, is_custom_property := false, parsable := true }
  (st, rv)

/-- The `while (p < q)` loop of `lookahead_for_value` (parser.cpp:2739-2746):
reports whether an interpolation `#{` occurs before `q`. -/
def valScan (buffer : List Char) (q : Nat) (p : Nat) : Bool :=
  if p < q then
    if charAt buffer p = '#' ∧ charAt buffer (p + 1) = '{' then true
    else valScan buffer q (p + 1)
  else false
termination_by q - p

/-- `Parser::lookahead_for_value(start)` (parser.cpp:2695-2759).  The
non-greedy token regex is the abstracted `matchValue`; an empty match
(`p == q`) returns the default struct, and `found` is set only when `{`, `;`
or `}` follows the match.  The parser state is returned unchanged. -/
def lookahead_for_value (buffer : List Char) (matchValue : Nat → Option Nat)
    (st : PState) (start : Option Nat) : PState × Lookahead :=
  let p := start.getD st.position
  let dflt : Lookahead :=
    { found := none, position := none, lookahead_error := none,
      has_interpolants := false, is_custom_property := false, parsable := false }
  let rv :=
    match matchValue p with
    | some q =>
      if p = q then dflt
      else
        let interp := valScan buffer q p
        let found : Option Nat :=
          if charAt buffer q = '{' then some q
          else if charAt buffer q = ';' then some q
          else if charAt buffer q = '}' then some q
          else none
        { dflt with found := found, position := some q, has_interpolants := interp }
    | none => dflt
  (st, rv)

/-! ### Number lexing (`number_has_zero`, `lexed_number`, `lexed_dimension`)

Texts are `List Char`.  `sass_strtod` (util.cpp, outside the parser source) is
modelled from the spec as the exact decimal value of the C `strtod` input —
the parser performs no arithmetic on the value, so the embedding uses exact
rationals in place of the C `double`. -/

/-- Numeric value of a decimal digit character. -/
def digitVal (c : Char) : Nat := c.toNat - 48

/-- Value of a run of decimal digit characters (most significant first). -/
def digitsVal (ds : List Char) : Nat :=
  ds.foldl (fun a c => a * 10 + digitVal c) 0

/-- The character set `"-+0123456789."` of `lexed_dimension`'s
`find_first_not_of`. -/
def numSet : List Char :=
  ['-', '+', '0', '1', '2', '3', '4', '5', '6', '7', '8', '9', '.']

/-- The whitespace set `" \n\r\t"` of `lexed_dimension`'s leading
`find_first_not_of`. -/
def spaceSet : List Char := [' ', '\n', '\r', '\t']

/-- `std::string::find_first_not_of(set, start)`: index of the first
character at position ≥ `start` that is not in `set`; `none` models `npos`. -/
def findFirstNotOf (s : List Char) (set : List Char) (start : Nat) : Option Nat :=
  ((s.drop start).findIdx? (fun c => ! set.contains c)).map (· + start)

/-- Splits an optional leading sign off a text, returning the sign as a
rational (−1 or 1) and the rest. -/
def splitSign (s : List Char) : ℚ × List Char :=
  match s with
  | c :: r => if c = '-' then (-1, r) else if c = '+' then (1, r) else (1, c :: r)
  | [] => (1, [])

/-- Drops an optional leading sign, counting the dropped characters. -/
def signLen (s : List Char) : Nat :=
  match s with
  | c :: _ => if c = '-' ∨ c = '+' then 1 else 0
  | [] => 0

/-- Does the text start with the given character? -/
def headIs (s : List Char) (c : Char) : Bool :=
  match s with
  | c2 :: _ => c2 = c
  | [] => false

/-- The exponent part accepted by `strtod` after an `e`/`E`: an optional sign
and a digit run; an absent digit run contributes exponent 0 (the C parse
backtracks over the bare `e`). -/
def readExponent (s : List Char) : Int :=
  let r := s.drop (signLen s)
  let ds := r.takeWhile Char.isDigit
  if ds.isEmpty then 0
  else (if headIs s '-' then -1 else 1) * (digitsVal ds : Int)

/-- `sass_strtod`.  Modelled from the spec: the exact decimal value of the
longest `strtod`-acceptable prefix — optional whitespace, optional sign,
integer digits, optional `.` and fraction digits, optional exponent;
trailing junk is ignored; an empty parse yields 0. -/
def sass_strtod (s : List Char) : ℚ :=
  let s1 := s.dropWhile isSpaceChar
  let p := splitSign s1
  let ip := p.2.takeWhile Char.isDigit
  let s3 := p.2.dropWhile Char.isDigit
  let q : List Char × List Char :=
    if headIs s3 '.' then ((s3.drop 1).takeWhile Char.isDigit, (s3.drop 1).dropWhile Char.isDigit)
    else ([], s3)
  let ex : Int :=
    if headIs q.2 'e' ∨ headIs q.2 'E' then readExponent (q.2.drop 1) else 0
  p.1 * ((digitsVal ip : ℚ) + (digitsVal q.1 : ℚ) / (10 : ℚ) ^ q.1.length) * (10 : ℚ) ^ ex

/-- `number_has_zero` (parser.cpp:1345-1352): false exactly when the lexed
text begins with `.`, `0.`, `-.` or `-0.` (the `substr` prefix comparisons;
the source's explicit length guards are implied by `take`, which cannot
produce a run longer than the text). -/
def number_has_zero (parsed : List Char) : Bool :=
  ! (parsed.take 1 == ['.'] || parsed.take 2 == ['0', '.'] ||
     parsed.take 2 == ['-', '.'] || parsed.take 3 == ['-', '0', '.'])

/-- `Parser::lexed_number` (parser.cpp:1354-1364): a unitless `Number` holding
the `strtod` value, the leading-zero flag from the text, and `is_delayed`
set to true. -/
def lexed_number (parsed : List Char) : Expression :=
  .number (sass_strtod parsed) [] (number_has_zero parsed) true

/-- The exponent tail matched by the prelexer `number` combinator: `e`,
optional sign, digits; returns the matched length (0 when the tail does not
match, leaving the `e` unconsumed). -/
def expLen (s : List Char) : Nat :=
  if headIs s 'e' then
    let r := s.drop 1
    let sl := signLen r
    let ds := (r.drop sl).takeWhile Char.isDigit
    if ds.isEmpty then 0 else 1 + sl + ds.length
  else 0

/-- The prelexer `number` combinator (prelexer, outside the parser source),
modelled from the spec §4.2's standard CSS number alphabet: optional sign,
then either digits with an optional `.`-digits part, or `.` and digits, then
an optional exponent; the dotted alternative is preferred.  Returns the
length of the match, `none` when nothing matches. -/
def numberMatchLen (s : List Char) : Option Nat :=
  let sl := signLen s
  let s1 := s.drop sl
  let ds := s1.takeWhile Char.isDigit
  let s2 := s1.dropWhile Char.isDigit
  if ds.isEmpty then
    if headIs s2 '.' then
      let fs := (s2.drop 1).takeWhile Char.isDigit
      if fs.isEmpty then none
      else some (sl + 1 + fs.length + expLen ((s2.drop 1).dropWhile Char.isDigit))
    else none
  else
    if headIs s2 '.' then
      let fs := (s2.drop 1).takeWhile Char.isDigit
      if fs.isEmpty then some (sl + ds.length + expLen s2)
      else some (sl + ds.length + 1 + fs.length + expLen ((s2.drop 1).dropWhile Char.isDigit))
    else some (sl + ds.length + expLen s2)

/-- `Util::is_number(char)` (util, outside the parser source): a digit or a
sign character — chosen so that a dimension's scientific exponent (`1e-5px`)
is attributed to the number, matching the `e`-handling of
`lexed_dimension`. -/
def isNumberChar (c : Char) : Bool :=
  c.isDigit || c = '-' || c = '+'

/-- `Parser::lexed_dimension` (parser.cpp:1378-1397): skip leading
whitespace, scan over the `"-+0123456789."` run (with the special case
re-scanning after an `e` that is followed by a number character), cut the
numeric substring for `strtod`, and keep as the unit token the text after
the prelexer `number` match (`Token(number(parsed.c_str()))` spans from the
match end to the end of the C string; the null-pointer case of a failed
match — never exercised by the lexer, which only feeds dimension tokens — is
modelled as the whole text).  A read at `npos` (all characters numeric) is
modelled as reading the NUL terminator. -/
def lexed_dimension (parsed : List Char) : Expression :=
  let L := parsed.length
  let num_pos := (findFirstNotOf parsed spaceSet 0).getD L
  let upA := findFirstNotOf parsed numSet num_pos
  let upB : Option Nat :=
    match upA with
    | some u =>
      if charAt parsed u = 'e' ∧ isNumberChar (charAt parsed (u + 1)) then
        findFirstNotOf parsed numSet (u + 1)
      else some u
    | none => none
  let unit_pos := upB.getD L
  let num := (parsed.drop num_pos).take (unit_pos - num_pos)
  let unitTok : List Char :=
    match numberMatchLen parsed with
    | some k => parsed.drop k
    | none => parsed
  .number (sass_strtod num) unitTok (number_has_zero parsed) true

/-! ### Rendering a `Number` back to text

The AST's number-to-text conversion lives outside the parser source; it is
modelled from the spec §3: "a `Number` preserves its textual form
sufficiently to round-trip sign, leading-zero presence, decimal part, and
unit token".  The renderer prints the sign, the exact decimal expansion of
the value (using the smallest power of ten clearing the denominator), and
the unit, and it omits the integer part's single `0` digit exactly when the
stored leading-zero flag is false. -/

/-- Fuel-driven largest-power helper: `powOfAux p n fuel` counts how often
`p ≥ 2` divides `n ≠ 0`. -/
def powOfAux (p : Nat) : Nat → Nat → Nat
  | _, 0 => 0
  | n, fuel + 1 =>
    if 2 ≤ p ∧ p ∣ n ∧ n ≠ 0 then 1 + powOfAux p (n / p) fuel else 0

/-- The exponent of `p` in `n` (0 for `n = 0`). -/
def powOf (p n : Nat) : Nat := powOfAux p n n

/-- The smallest `k` with `q * 10^k` integral, for a `q` whose denominator is
10-smooth: the larger of the exponents of 2 and 5 in the denominator. -/
def decExp (q : ℚ) : Nat := max (powOf 2 q.den) (powOf 5 q.den)

/-- Fuel-driven decimal digits of a natural number, most significant first. -/
def natDigitsAux : Nat → Nat → List Nat
  | _, 0 => []
  | n, fuel + 1 => if n < 10 then [n] else natDigitsAux (n / 10) fuel ++ [n % 10]

/-- Decimal digits of a natural number (`natDigits 0 = [0]`). -/
def natDigits (n : Nat) : List Nat := natDigitsAux n (n + 1)

/-- Value of a digit list, most significant first. -/
def digitsToNat (ds : List Nat) : Nat := ds.foldl (fun a d => a * 10 + d) 0

/-- A decomposed number text: sign, integer digits, optional fraction digits,
unit text.  `text` below is the concatenation the lexer sees. -/
structure NumText where
  neg : Bool
  intDigits : List Nat
  fracDigits : Option (List Nat)
  unit : List Char
deriving Repr

/-- The digit character of a digit value. -/
def digitChar (d : Nat) : Char := Char.ofNat (48 + d)

/-- The text of a decomposed number. -/
def NumText.text (t : NumText) : List Char :=
  (if t.neg then ['-'] else []) ++ t.intDigits.map digitChar ++
  (match t.fracDigits with
   | some fs => '.' :: fs.map digitChar
   | none => []) ++ t.unit

/-- The exact rational value of a decomposed number. -/
def NumText.val (t : NumText) : ℚ :=
  let mag : ℚ := (digitsToNat t.intDigits : ℚ) +
    (match t.fracDigits with
     | some fs => (digitsToNat fs : ℚ) / (10 : ℚ) ^ fs.length
     | none => 0)
  if t.neg then -mag else mag

/-- Well-formedness of a decomposed number text: digits below 10, a present
fraction nonempty, an empty integer part only with a fraction, and a
nonempty unit of letter-like characters — not digits, not in the scan set
`"-+0123456789."`, and not whitespace. -/
def NumText.wf (t : NumText) : Bool :=
  t.intDigits.all (· < 10) &&
  (match t.fracDigits with
   | some fs => fs.all (· < 10) && ! fs.isEmpty
   | none => true) &&
  (! t.intDigits.isEmpty || (t.fracDigits).isSome) &&
  ! t.unit.isEmpty &&
  t.unit.all (fun c => ! c.isDigit && ! numSet.contains c && ! isSpaceChar c)

/-- A redundant leading zero: an integer digit run of length ≥ 2 whose value
is 0, next to a nonzero fraction — texts like `00.5px`, whose stored
leading-zero flag no textual form of the node value can reproduce. -/
def NumText.redundant (t : NumText) : Bool :=
  decide (digitsToNat t.intDigits = 0) && decide (2 ≤ t.intDigits.length) &&
  (match t.fracDigits with
   | some fs => decide (digitsToNat fs ≠ 0)
   | none => false)

/-- The decomposed rendering of a `Number` (value, unit, leading-zero flag).
Modelled from the spec §3 as described above: `m` is the numerator of
`|v| * 10^k` for the smallest sufficient `k`; the integer digits are dropped
in favor of a bare `.` exactly when the flag is false and the integer part
is zero (for an integral value the fraction `.0` keeps the text
well-formed). -/
def renderDecomp (v : ℚ) (u : List Char) (z : Bool) : NumText :=
  let a : ℚ := |v|
  let k := decExp a
  let m := (a * (10 : ℚ) ^ k).num.toNat
  let ip := m / 10 ^ k
  let fr := m % 10 ^ k
  let frds := List.replicate (k - (natDigits fr).length) 0 ++ natDigits fr
  if z = false ∧ ip = 0 then
    ⟨decide (v < 0), [], some (if k = 0 then [0] else frds), u⟩
  else
    ⟨decide (v < 0), natDigits ip, if k = 0 then none else some frds, u⟩

/-- The rendered text of a `Number` node (empty for other nodes). -/
def renderText (e : Expression) : List Char :=
  match e with
  | .number v u z _ => (renderDecomp v u z).text
  | _ => []

/-- The unit-character property demanded by `NumText.wf`. -/
def unitChar (c : Char) : Bool :=
  ! c.isDigit && ! numSet.contains c && ! isSpaceChar c

/-- The leading-zero flag of the rendered decimal form of a `Number` holding
value `v` and stored flag `z`: the rendered text never starts with one of the
flag-clearing prefixes when `|v| ≥ 1`; for `v = 0` the renderer follows the
stored flag (`0.0` versus `.0`); and for `0 < |v| < 1` the decimal form
necessarily starts `.`/`0.` (after an optional sign), clearing the flag. -/
def rendered_flag (v : ℚ) (z : Bool) : Bool :=
  if 1 ≤ |v| then true else if v = 0 then z else false

/-- The numeric prefix of a decomposed number text (sign, integer digits,
optional dot and fraction digits). -/
def numChars (neg : Bool) (ids : List Nat) (fds : Option (List Nat)) : List Char :=
  (if neg then ['-'] else []) ++ ids.map digitChar ++
  (match fds with
   | some fs => '.' :: fs.map digitChar
   | none => [])

/-- The decimal value of a decomposed number. -/
def decVal (neg : Bool) (ids : List Nat) (fds : Option (List Nat)) : ℚ :=
  (if neg then (-1 : ℚ) else 1) *
    ((digitsToNat ids : ℚ) +
      (match fds with
       | some fs => (digitsToNat fs : ℚ) / (10 : ℚ) ^ fs.length
       | none => 0))

/-- The fraction part of a decomposed number text. -/
def fpart : Option (List Nat) → List Char
  | some fs => '.' :: fs.map digitChar
  | none => []

/-- The number of fraction digits of a decomposed number (0 when absent). -/
def fracLen : Option (List Nat) → Nat
  | some fs => fs.length
  | none => 0

/-- The fraction digits' value of a decomposed number (0 when absent). -/
def fracVal : Option (List Nat) → Nat
  | some fs => digitsToNat fs
  | none => 0

/-! ## Claim theorems -/

/-- C2, counterexample: the claim states that an `@import` whose nearest
enclosing scope is `Function` fails with the import-nesting error, but the
guard of parser.cpp:234 explicitly exempts `Scope::Function`: with the scope
stack of `@function f() { @import "x"; }` at the `@import` (a `Function`
scope pushed by `parse_definition`, parser.cpp:394, over the initial `Root`)
and a non-`url(` target, no error is raised. -/
theorem C2_import_in_function_no_error :
    importGuard [Scope.Root, Scope.Function] false = none := by rfl

/-- C2, amended: parsing an `@import` whose target is not a `url(` form fails
with "Import directives may not be used within control directives or mixins."
exactly when the nearest enclosing scope (`Rules` for an empty stack) is none
of `Function`, `Root`, `Rules`, `Media` — so `Control` and `Mixin` scopes are
rejected, but `Function` is not. -/
theorem C2_import_guard_characterization (stack : List Scope) (uri : Bool) :
    importGuard stack uri =
      some "Import directives may not be used within control directives or mixins." ↔
    (((stack.getLast?).getD Scope.Rules ≠ Scope.Function ∧
      (stack.getLast?).getD Scope.Rules ≠ Scope.Root ∧
      (stack.getLast?).getD Scope.Rules ≠ Scope.Rules ∧
      (stack.getLast?).getD Scope.Rules ≠ Scope.Media) ∧ uri = false) := by
  unfold importGuard
  by_cases h : (stack.getLast?).getD Scope.Rules ≠ Scope.Function ∧
      (stack.getLast?).getD Scope.Rules ≠ Scope.Root ∧
      (stack.getLast?).getD Scope.Rules ≠ Scope.Rules ∧
      (stack.getLast?).getD Scope.Rules ≠ Scope.Media
  · simp only [h, if_true]
    cases uri <;> simp [h]
  · simp [h]

/-- C6: a function call whose normalized name is "content-exists" fails with
"Cannot call content-exists() except within a mixin." whenever the innermost
scope (top of the scope stack) is not `Mixin`; with `Mixin` innermost, the
call parses into a `Function_Call` node carrying the name and arguments
(parser.cpp:1991-2002). -/
theorem C6_content_exists_guard (name : String) (stack : List Scope) (args : Nat) :
    (normalize_underscores name = "content-exists" → stackBack stack ≠ Scope.Mixin →
      parse_function_call name stack args =
        .error "Cannot call content-exists() except within a mixin.") ∧
    (stackBack stack = Scope.Mixin →
      parse_function_call name stack args = .ok ⟨name, args⟩) := by
  constructor
  · intro h1 h2
    simp [parse_function_call, h1, h2]
  · intro h
    have : ¬ (normalize_underscores name = "content-exists" ∧ stackBack stack ≠ Scope.Mixin) := by
      intro hc
      exact hc.2 h
    simp [parse_function_call, this]

/-- C6 witness: `content_exists()` (underscore form, normalizing to
`content-exists`) inside an `@if` inside a mixin — innermost scope `Control`
— errors; `content-exists()` with `Mixin` innermost parses to a call node. -/
theorem C6_content_exists_guard_witness :
    parse_function_call "content_exists" [Scope.Root, Scope.Mixin, Scope.Control] 0 =
      .error "Cannot call content-exists() except within a mixin." ∧
    parse_function_call "content-exists" [Scope.Root, Scope.Mixin] 1 = .ok ⟨"content-exists", 1⟩ :=
  ⟨(C6_content_exists_guard "content_exists" [Scope.Root, Scope.Mixin, Scope.Control] 0).1
      (by decide) (by decide),
   (C6_content_exists_guard "content-exists" [Scope.Root, Scope.Mixin] 1).2 (by decide)⟩

/-- C9: the speculative lookahead scans `lookahead_for_selector` and
`lookahead_for_value` compute their result purely from the buffer, the
abstracted regex peek, and the starting position, and return the parser's
cursor state (`position` and the `pstate` tracker) unchanged. -/
theorem C9_lookahead_preserves_state (buffer : List Char)
    (m1 m2 : Nat → Option Nat) (st : PState) (start : Option Nat) :
    (lookahead_for_selector buffer m1 st start).1 = st ∧
    (lookahead_for_value buffer m2 st start).1 = st :=
  ⟨rfl, rfl⟩

/-- C5: an `@else`/`@else if` immediately following the block of an `@if` (or
of an `@else if`) is attached as the `If` node's alternative
(parser.cpp:2032-2038) — an `@else if` as an alternative block holding the
nested `If`, an `@else` as the alternative block itself; an `@else` reaching
statement-dispatch position — in particular one separated from the `@if`
block by any other statement — fails with "Invalid CSS: @else must come
after @if" (parser.cpp:293). -/
theorem C5_else_attachment (p p2 : Expression) (b b2 be : List Stmt)
    (s : Stmt) (rest : List BlockTok) :
    parse_if_directive p b (.elseTok be :: rest) = (.ifStmt p b (some be), rest) ∧
    parse_if_directive p b (.elseifTok p2 b2 :: .elseTok be :: rest) =
      (.ifStmt p b (some [.ifStmt p2 b2 (some be)]), rest) ∧
    parse_block_nodes (.elseTok be :: rest) =
      .error (.fatal "Invalid CSS: @else must come after @if") ∧
    parse_block_nodes (.elseifTok p2 b2 :: rest) =
      .error (.fatal "Invalid CSS: @else must come after @if") ∧
    parse_block_nodes (.ifTok p b :: .stmtTok s :: .elseTok be :: rest) =
      .error (.fatal "Invalid CSS: @else must come after @if") := by
  refine ⟨rfl, rfl, ?_, ?_, ?_⟩
  · simp [parse_block_nodes]
  · simp [parse_block_nodes]
  · simp [parse_block_nodes, parse_if_directive]

/-- C10: an `@charset` directive is consumed (`parse_charset_directive` lexes
the quoted string, optional spaces and `;`, parser.cpp:630-639) but appends
no statement to the enclosing block (parser.cpp:290-291): the block's parsed
statement list with the directive present equals the list without it. -/
theorem C10_charset_appends_nothing (rest : List BlockTok) :
    parse_block_nodes (.charsetTok :: rest) = parse_block_nodes rest := by
  rw [parse_block_nodes]
  cases h : parse_block_nodes rest <;> simp

theorem check_bom_chars_append (b r : List Nat) : check_bom_chars (b ++ r) b = b.length := by
  have h1 : ¬ (b.length > (b ++ r).length) := by simp [List.length_append]
  have h2 : (b ++ r).take b.length = b := List.take_left b r
  simp [check_bom_chars, h1, h2]

theorem check_bom_chars_zero {src b : List Nat} (h : ¬ b <+: src) :
    check_bom_chars src b = 0 := by
  unfold check_bom_chars
  split_ifs with h1 h2
  · rfl
  · exact absurd (List.prefix_iff_eq_take.mpr h2.symm) h
  · rfl

theorem lor_eq_zero_parts {x y : Nat} (h : x ||| y = 0) : x = 0 ∧ y = 0 := by
  constructor <;> apply Nat.eq_of_testBit_eq <;> intro k <;>
    (have hk := congrArg (fun n => n.testBit k) h; simp [Nat.testBit_lor] at hk)
  · simp [hk.1]
  · simp [hk.2]

theorem lor_ne_zero_left {x y : Nat} (h : x ≠ 0) : x ||| y ≠ 0 :=
  fun hc => h (lor_eq_zero_parts hc).1

theorem lor_ne_zero_right {x y : Nat} (h : y ≠ 0) : x ||| y ≠ 0 :=
  fun hc => h (lor_eq_zero_parts hc).2

set_option maxHeartbeats 2000000 in
/-- C8: a UTF-8 byte-order mark is skipped (3 bytes) and parsing proceeds;
every other recognized BOM (UTF-16 BE, UTF-32 LE/BE, the five UTF-7 forms,
UTF-1, UTF-EBCDIC, SCSU, BOCU-1, GB-18030) fails the parse with the message
naming the detected encoding — a `FF FE` opening names UTF-32 (little
endian) exactly when the two following bytes are `00 00`, else UTF-16
(little endian); a buffer starting with none of the recognized BOM byte
sequences is left unchanged (skip 0, no error). -/
theorem C8_bom_handling :
    (∀ rest : List Nat, read_bom (utf_8_bom ++ rest) = .ok 3) ∧
    (∀ p ∈ rejectedBoms, ∀ rest : List Nat, read_bom (p.1 ++ rest) =
      .error ("only UTF-8 documents are currently supported; your document appears to be "
        ++ p.2)) ∧
    (∀ rest : List Nat, read_bom (utf_16_bom_le ++ rest) =
      .error ("only UTF-8 documents are currently supported; your document appears to be "
        ++ (if rest.take 2 = [0, 0] then "UTF-32 (little endian)"
            else "UTF-16 (little endian)"))) ∧
    (∀ src : List Nat, (∀ b ∈ allBoms, ¬ b <+: src) → read_bom src = .ok 0) := by
  have hu8 := check_bom_chars_append utf_8_bom
  have hu16be := check_bom_chars_append utf_16_bom_be
  have hu16le := check_bom_chars_append utf_16_bom_le
  have hu32be := check_bom_chars_append utf_32_bom_be
  have hu32le := check_bom_chars_append utf_32_bom_le
  have hu71 := check_bom_chars_append utf_7_bom_1
  have hu72 := check_bom_chars_append utf_7_bom_2
  have hu73 := check_bom_chars_append utf_7_bom_3
  have hu74 := check_bom_chars_append utf_7_bom_4
  have hu75 := check_bom_chars_append utf_7_bom_5
  have hu1 := check_bom_chars_append utf_1_bom
  have hue := check_bom_chars_append utf_ebcdic_bom
  have hscsu := check_bom_chars_append scsu_bom
  have hbocu := check_bom_chars_append bocu_1_bom
  have hgb := check_bom_chars_append gb_18030_bom
  refine ⟨?_, ?_, ?_, ?_⟩
  · intro rest
    have hc : check_bom_chars (0xEF :: 0xBB :: 0xBF :: rest) [0xEF, 0xBB, 0xBF] = 3 := by
      simpa [utf_8_bom] using hu8 rest
    simp [read_bom, utf_8_bom, hc]
  · intro p hp rest
    fin_cases hp
    · have hc : check_bom_chars (0xFE :: 0xFF :: rest) [0xFE, 0xFF] = 2 := by
        simpa [utf_16_bom_be] using hu16be rest
      simp [read_bom, utf_16_bom_be, hc]
    · have ha : check_bom_chars (0xFF :: 0xFE :: 0x00 :: 0x00 :: rest) [0xFF, 0xFE] = 2 := by
        simpa [utf_16_bom_le, utf_32_bom_le] using hu16le (0x00 :: 0x00 :: rest)
      have hb : check_bom_chars (0xFF :: 0xFE :: 0x00 :: 0x00 :: rest)
          [0xFF, 0xFE, 0x00, 0x00] = 4 := by
        simpa [utf_32_bom_le] using hu32le rest
      simp [read_bom, utf_32_bom_le, utf_16_bom_le, ha, hb]
    · have hc : check_bom_chars (0x00 :: 0x00 :: 0xFE :: 0xFF :: rest)
          [0x00, 0x00, 0xFE, 0xFF] = 4 := by
        simpa [utf_32_bom_be] using hu32be rest
      simp [read_bom, utf_32_bom_be, hc]
    · have hb : utf_7_bom_1.head? = some 0x2B := by simp [utf_7_bom_1]
      have hpos : (check_bom_chars (utf_7_bom_1 ++ rest) utf_7_bom_1 |||
        (check_bom_chars (utf_7_bom_1 ++ rest) utf_7_bom_2 |||
         (check_bom_chars (utf_7_bom_1 ++ rest) utf_7_bom_3 |||
          (check_bom_chars (utf_7_bom_1 ++ rest) utf_7_bom_4 |||
           check_bom_chars (utf_7_bom_1 ++ rest) utf_7_bom_5)))) ≠ 0 := by
        apply lor_ne_zero_left
        rw [hu71 rest]
        decide
      simp [read_bom, hb, hpos, Nat.pos_of_ne_zero hpos]
    · have hb : utf_7_bom_2.head? = some 0x2B := by simp [utf_7_bom_2]
      have hpos : (check_bom_chars (utf_7_bom_2 ++ rest) utf_7_bom_1 |||
        (check_bom_chars (utf_7_bom_2 ++ rest) utf_7_bom_2 |||
         (check_bom_chars (utf_7_bom_2 ++ rest) utf_7_bom_3 |||
          (check_bom_chars (utf_7_bom_2 ++ rest) utf_7_bom_4 |||
           check_bom_chars (utf_7_bom_2 ++ rest) utf_7_bom_5)))) ≠ 0 := by
        apply lor_ne_zero_right
        apply lor_ne_zero_left
        rw [hu72 rest]
        decide
      simp [read_bom, hb, hpos, Nat.pos_of_ne_zero hpos]
    · have hb : utf_7_bom_3.head? = some 0x2B := by simp [utf_7_bom_3]
      have hpos : (check_bom_chars (utf_7_bom_3 ++ rest) utf_7_bom_1 |||
        (check_bom_chars (utf_7_bom_3 ++ rest) utf_7_bom_2 |||
         (check_bom_chars (utf_7_bom_3 ++ rest) utf_7_bom_3 |||
          (check_bom_chars (utf_7_bom_3 ++ rest) utf_7_bom_4 |||
           check_bom_chars (utf_7_bom_3 ++ rest) utf_7_bom_5)))) ≠ 0 := by
        apply lor_ne_zero_right
        apply lor_ne_zero_right
        apply lor_ne_zero_left
        rw [hu73 rest]
        decide
      simp [read_bom, hb, hpos, Nat.pos_of_ne_zero hpos]
    · have hb : utf_7_bom_4.head? = some 0x2B := by simp [utf_7_bom_4]
      have hpos : (check_bom_chars (utf_7_bom_4 ++ rest) utf_7_bom_1 |||
        (check_bom_chars (utf_7_bom_4 ++ rest) utf_7_bom_2 |||
         (check_bom_chars (utf_7_bom_4 ++ rest) utf_7_bom_3 |||
          (check_bom_chars (utf_7_bom_4 ++ rest) utf_7_bom_4 |||
           check_bom_chars (utf_7_bom_4 ++ rest) utf_7_bom_5)))) ≠ 0 := by
        apply lor_ne_zero_right
        apply lor_ne_zero_right
        apply lor_ne_zero_right
        apply lor_ne_zero_left
        rw [hu74 rest]
        decide
      simp [read_bom, hb, hpos, Nat.pos_of_ne_zero hpos]
    · have hb : utf_7_bom_5.head? = some 0x2B := by simp [utf_7_bom_5]
      have hpos : (check_bom_chars (utf_7_bom_5 ++ rest) utf_7_bom_1 |||
        (check_bom_chars (utf_7_bom_5 ++ rest) utf_7_bom_2 |||
         (check_bom_chars (utf_7_bom_5 ++ rest) utf_7_bom_3 |||
          (check_bom_chars (utf_7_bom_5 ++ rest) utf_7_bom_4 |||
           check_bom_chars (utf_7_bom_5 ++ rest) utf_7_bom_5)))) ≠ 0 := by
        apply lor_ne_zero_right
        apply lor_ne_zero_right
        apply lor_ne_zero_right
        apply lor_ne_zero_right
        rw [hu75 rest]
        decide
      simp [read_bom, hb, hpos, Nat.pos_of_ne_zero hpos]
    · have hc : check_bom_chars (0xF7 :: 0x64 :: 0x4C :: rest) [0xF7, 0x64, 0x4C] = 3 := by
        simpa [utf_1_bom] using hu1 rest
      simp [read_bom, utf_1_bom, hc]
    · have hc : check_bom_chars (0xDD :: 0x73 :: 0x66 :: 0x73 :: rest)
          [0xDD, 0x73, 0x66, 0x73] = 4 := by
        simpa [utf_ebcdic_bom] using hue rest
      simp [read_bom, utf_ebcdic_bom, hc]
    · have hc : check_bom_chars (0x0E :: 0xFE :: 0xFF :: rest) [0x0E, 0xFE, 0xFF] = 3 := by
        simpa [scsu_bom] using hscsu rest
      simp [read_bom, scsu_bom, hc]
    · have hc : check_bom_chars (0xFB :: 0xEE :: 0x28 :: rest) [0xFB, 0xEE, 0x28] = 3 := by
        simpa [bocu_1_bom] using hbocu rest
      simp [read_bom, bocu_1_bom, hc]
    · have hc : check_bom_chars (0x84 :: 0x31 :: 0x95 :: 0x33 :: rest)
          [0x84, 0x31, 0x95, 0x33] = 4 := by
        simpa [gb_18030_bom] using hgb rest
      simp [read_bom, gb_18030_bom, hc]
  · intro rest
    by_cases hc : rest.take 2 = [0, 0]
    · obtain ⟨r1, rest, rfl⟩ : ∃ a tl, rest = a :: tl := by
        cases rest with
        | nil => simp at hc
        | cons a tl => exact ⟨a, tl, rfl⟩
      obtain ⟨r2, rest, rfl⟩ : ∃ a tl, rest = a :: tl := by
        cases rest with
        | nil => simp at hc
        | cons a tl => exact ⟨a, tl, rfl⟩
      simp only [List.take, List.cons.injEq] at hc
      obtain ⟨rfl, rfl, -⟩ := hc
      have ha : check_bom_chars (0xFF :: 0xFE :: 0 :: 0 :: rest) [0xFF, 0xFE] = 2 := by
        simpa [utf_16_bom_le] using hu16le (0 :: 0 :: rest)
      have hb : check_bom_chars (0xFF :: 0xFE :: 0 :: 0 :: rest) [0xFF, 0xFE, 0, 0] = 4 := by
        simpa [utf_32_bom_le] using hu32le rest
      simp [read_bom, utf_16_bom_le, utf_32_bom_le, ha, hb]
    · have ha : check_bom_chars (0xFF :: 0xFE :: rest) [0xFF, 0xFE] = 2 := by
        simpa [utf_16_bom_le] using hu16le rest
      have hb : check_bom_chars (0xFF :: 0xFE :: rest) [0xFF, 0xFE, 0, 0] = 0 := by
        have hpre : ¬ utf_32_bom_le <+: utf_16_bom_le ++ rest := by
          intro hpre
          apply hc
          have := List.prefix_iff_eq_take.mp hpre
          rw [List.take_append_eq_append_take] at this
          simp [utf_16_bom_le, utf_32_bom_le] at this
          exact this.symm
        simpa [utf_16_bom_le, utf_32_bom_le] using check_bom_chars_zero hpre
      simp [read_bom, utf_16_bom_le, utf_32_bom_le, ha, hb, hc]
  · intro src h
    have hz : ∀ b ∈ allBoms, check_bom_chars src b = 0 := fun b hb =>
      check_bom_chars_zero (h b hb)
    have z1 : check_bom_chars src utf_8_bom = 0 := hz _ (by simp [allBoms])
    have z2 : check_bom_chars src utf_16_bom_be = 0 := hz _ (by simp [allBoms, rejectedBoms])
    have z3 : check_bom_chars src utf_16_bom_le = 0 := hz _ (by simp [allBoms])
    have z4 : check_bom_chars src utf_32_bom_be = 0 := hz _ (by simp [allBoms, rejectedBoms])
    have z5 : check_bom_chars src utf_32_bom_le = 0 := hz _ (by simp [allBoms, rejectedBoms])
    have z6 : check_bom_chars src utf_7_bom_1 = 0 := hz _ (by simp [allBoms, rejectedBoms])
    have z7 : check_bom_chars src utf_7_bom_2 = 0 := hz _ (by simp [allBoms, rejectedBoms])
    have z8 : check_bom_chars src utf_7_bom_3 = 0 := hz _ (by simp [allBoms, rejectedBoms])
    have z9 : check_bom_chars src utf_7_bom_4 = 0 := hz _ (by simp [allBoms, rejectedBoms])
    have z10 : check_bom_chars src utf_7_bom_5 = 0 := hz _ (by simp [allBoms, rejectedBoms])
    have z11 : check_bom_chars src utf_1_bom = 0 := hz _ (by simp [allBoms, rejectedBoms])
    have z12 : check_bom_chars src utf_ebcdic_bom = 0 := hz _ (by simp [allBoms, rejectedBoms])
    have z13 : check_bom_chars src scsu_bom = 0 := hz _ (by simp [allBoms, rejectedBoms])
    have z14 : check_bom_chars src bocu_1_bom = 0 := hz _ (by simp [allBoms, rejectedBoms])
    have z15 : check_bom_chars src gb_18030_bom = 0 := hz _ (by simp [allBoms, rejectedBoms])
    simp only [read_bom, z1, z2, z3, z4, z5, z6, z7, z8, z9, z10, z11, z12, z13, z14, z15]
    clear hz h z1 z2 z3 z4 z5 z6 z7 z8 z9 z10 z11 z12 z13 z14 z15
    clear hu8 hu16be hu16le hu32be hu32le hu71 hu72 hu73 hu74 hu75 hu1 hue hscsu hbocu hgb
    have hmain : ∀ t : Nat × String × Bool, t.1 = 0 →
        (if t.1 > 0 ∧ ¬ t.2.2 then
          (Except.error ("only UTF-8 documents are currently supported; your document appears to be " ++ t.2.1) : Except String Nat)
         else Except.ok t.1) = Except.ok 0 := by
      intro t ht
      simp [ht]
    apply hmain
    split_ifs <;> rfl

/-- C8 witness: a concrete rejected BOM (UTF-16 BE followed by `A`) errors
naming the encoding, and the plain buffer `AB` carries no BOM and parses with
skip 0. -/
theorem C8_bom_handling_witness :
    read_bom (utf_16_bom_be ++ [0x41]) =
      .error ("only UTF-8 documents are currently supported; your document appears to be "
        ++ "UTF-16 (big endian)") ∧
    read_bom [0x41, 0x42] = .ok 0 :=
  ⟨C8_bom_handling.2.1 (utf_16_bom_be, "UTF-16 (big endian)") (by simp [rejectedBoms]) [0x41],
   C8_bom_handling.2.2.2 [0x41, 0x42] (by decide)⟩

/-- C3: a space-list level that finds exactly one element (the next token ends
the space list) returns that element itself; a comma-list level whose single
space list is not followed by a comma likewise returns the element itself
(undelayed unless `delayed` was requested); and every expression
`parse_bracket_list` returns is a `List` node with the bracketed flag set —
a bracketed singleton is never unwrapped. -/
theorem C3_singleton_unwrap_and_brackets :
    (∀ (e : Expression) (sp : Bool) (rest : List Token), peekSpaceTerm rest = true →
      parse_space_list (.atom e sp :: rest) = .ok (e, rest)) ∧
    (∀ (d : Bool) (e : Expression) (sp : Bool) (rest : List Token),
      peekSpaceTerm rest = true → rest.head? ≠ some .comma →
      parse_comma_list d (.atom e sp :: rest) =
        .ok (if d then e else e.set_delayed false, rest)) ∧
    (∀ (ts : List Token) (res : Expression) (r : List Token),
      parse_bracket_list ts = .ok (res, r) → res.isBracketedList = true) := by
  refine ⟨?_, ?_, ?_⟩
  · intro e sp rest hp
    simp [parse_space_list, parse_disjunction, hp]
  · intro d e sp rest hp hnc
    have hsl : parse_space_list (.atom e sp :: rest) = .ok (e, rest) := by
      simp [parse_space_list, parse_disjunction, hp]
    have hterm : peekListTerm (Token.atom e sp :: rest) = false := by
      simp [peekListTerm, isListTerm]
    unfold parse_comma_list
    rw [hterm, hsl]
    simp only [Bool.false_eq_true, if_false]
    match hr : rest with
    | [] => simp
    | .comma :: tl => simp [hr] at hnc
    | .atom a b :: tl => simp [peekSpaceTerm] at hp
    | .colon :: tl => simp
    | .rparen :: tl => simp
    | .rbracket :: tl => simp
    | .semicolon :: tl => simp
    | .stop :: tl => simp
  · intro ts res r h
    unfold parse_bracket_list at h
    split_ifs at h with h1
    · simp only [Except.ok.injEq, Prod.mk.injEq] at h
      rw [← h.1]
      rfl
    · split at h
      · simp at h
      · split at h
        · split at h
          · simp at h
          · simp only [Except.ok.injEq, Prod.mk.injEq] at h
            rw [← h.1]
            rfl
        · split at h
          · split_ifs at h <;>
              (simp only [Except.ok.injEq, Prod.mk.injEq] at h; rw [← h.1]) <;> rfl
          · simp only [Except.ok.injEq, Prod.mk.injEq] at h
            rw [← h.1]
            rfl

/-- C3 witness: a single atom before `;` comes back as the atom itself from
both list levels, and a bracketed singleton `[x]` stays a bracketed list. -/
theorem C3_singleton_unwrap_and_brackets_witness :
    parse_space_list [.atom (.atom 1 false true) false, .semicolon] =
      .ok (.atom 1 false true, [.semicolon]) ∧
    parse_comma_list false [.atom (.atom 1 false true) false, .semicolon] =
      .ok (.atom 1 false false, [.semicolon]) ∧
    (.list .space true [.atom 1 false true] false : Expression).isBracketedList = true := by
  refine ⟨C3_singleton_unwrap_and_brackets.1 (.atom 1 false true) false [.semicolon] (by rfl),
    ?_, ?_⟩
  · have h := C3_singleton_unwrap_and_brackets.2.1 false (.atom 1 false true) false
      [.semicolon] (by rfl) (by simp)
    simpa [Expression.set_delayed, Expression.with_delayed] using h
  · exact C3_singleton_unwrap_and_brackets.2.2
      [.atom (.atom 1 false true) true, .rbracket]
      (.list .space true [.atom 1 false true] false) [.rbracket] (by rfl)

theorem commaLoop_break (acc : List Expression) (ts : List Token)
    (h : ts.head? ≠ some Token.comma) : commaLoop acc ts = .ok (acc, ts) := by
  match ts with
  | [] => rw [commaLoop.eq_def]
  | .comma :: tl => simp at h
  | .atom e sp :: tl => rw [commaLoop.eq_def]
  | .colon :: tl => rw [commaLoop.eq_def]
  | .rparen :: tl => rw [commaLoop.eq_def]
  | .rbracket :: tl => rw [commaLoop.eq_def]
  | .semicolon :: tl => rw [commaLoop.eq_def]
  | .stop :: tl => rw [commaLoop.eq_def]

theorem commaLoop_step (acc : List Expression) {rest : List Token} {e : Expression}
    {r : List Token} (hterm : peekListTerm rest = false)
    (hsp : parse_space_list rest = .ok (e, r)) :
    commaLoop acc (.comma :: rest) = commaLoop (acc ++ [e]) r := by
  rw [commaLoop.eq_def]
  simp only [hterm, Bool.false_eq_true, if_false]
  split
  · rename_i e1 heq
    rw [hsp] at heq
    simp at heq
  · rename_i e2 r2 heq
    rw [hsp] at heq
    simp only [Except.ok.injEq, Prod.mk.injEq] at heq
    rw [heq.1, heq.2]

theorem isCommaList_with_delayed (e : Expression) (d : Bool) :
    (e.with_delayed d).isCommaList = e.isCommaList := by
  cases e with
  | list sep br items dl => cases sep <;> rfl
  | number v u z dl => rfl
  | string_constant s dl => rfl
  | string_schema hi dl => rfl
  | binary op l r dl => rfl
  | atom i p dl => rfl

/-- C4: a parenthesized expression whose first parsed element is followed by
`:` becomes a hash-separated `Map` list of alternating keys and values, each
key and value parsed as a space-list — conjunct 2 is the general single-entry
shape, conjunct 1 the claim's `(a: 1, b: 2,)` with its trailing comma
tolerated before `)`; a comma-separated list before the first `:` is a
css_error expecting `)` (conjunct 3). -/
theorem C4_map_literal :
    (parse_map [.atom (.string_constant ['a'] false) false, .colon,
        .atom (.number 1 [] true true) false, .comma,
        .atom (.string_constant ['b'] false) false, .colon,
        .atom (.number 2 [] true true) false, .comma, .rparen] =
      .ok (.list .hash false
        [.string_constant ['a'] false, .number 1 [] true true,
         .string_constant ['b'] false, .number 2 [] true true] false, [.rparen])) ∧
    (∀ (k v : Expression) (sp sp2 : Bool) (rest : List Token),
      k.isCommaList = false → peekSpaceTerm rest = true → rest.head? ≠ some .comma →
      parse_map (.atom k sp :: .colon :: .atom v sp2 :: rest) =
        .ok (.list .hash false [k.set_delayed false, v] false, rest)) ∧
    (∀ (a b : Expression) (sp sp2 : Bool) (rest : List Token),
      parse_map (.atom a sp :: .comma :: .atom b sp2 :: .colon :: rest) =
        .error (.cssError "\")\"")) := by
  refine ⟨?_, ?_, ?_⟩
  · simp [parse_map, parse_list, parse_comma_list, parse_space_list, parse_disjunction,
      peekListTerm, isListTerm, peekSpaceTerm, commaLoop, mapLoop, Token.isRParen,
      Expression.isCommaList, Expression.set_delayed, Expression.with_delayed]
  · intro k v sp sp2 rest hk hrest hnc
    have hsl : parse_space_list (.atom k sp :: .colon :: .atom v sp2 :: rest) =
        .ok (k, .colon :: .atom v sp2 :: rest) := by
      simp [parse_space_list, parse_disjunction, peekSpaceTerm]
    have hsv : parse_space_list (.atom v sp2 :: rest) = .ok (v, rest) := by
      simp [parse_space_list, parse_disjunction, hrest]
    have hml : mapLoop [k.set_delayed false, v] rest = .ok ([k.set_delayed false, v], rest) := by
      match hr : rest with
      | [] => simp [mapLoop]
      | .comma :: tl => simp [hr] at hnc
      | .atom a b :: tl => simp [peekSpaceTerm] at hrest
      | .colon :: tl => simp [mapLoop]
      | .rparen :: tl => simp [mapLoop]
      | .rbracket :: tl => simp [mapLoop]
      | .semicolon :: tl => simp [mapLoop]
      | .stop :: tl => simp [mapLoop]
    have hcl : parse_comma_list false (.atom k sp :: .colon :: .atom v sp2 :: rest) =
        .ok (k.set_delayed false, .colon :: .atom v sp2 :: rest) := by
      unfold parse_comma_list
      rw [hsl]
      simp [peekListTerm, isListTerm]
    have hk2 : (k.set_delayed false).isCommaList = false := by
      unfold Expression.set_delayed
      rw [isCommaList_with_delayed]
      exact hk
    unfold parse_map parse_list
    rw [hcl]
    simp only [hk2, Bool.false_eq_true, if_false, hsv, hml]
  · intro a b sp sp2 rest
    have hsl : parse_space_list (.atom a sp :: .comma :: .atom b sp2 :: .colon :: rest) =
        .ok (a, .comma :: .atom b sp2 :: .colon :: rest) := by
      simp [parse_space_list, parse_disjunction, peekSpaceTerm]
    have hsb : parse_space_list (.atom b sp2 :: .colon :: rest) =
        .ok (b, .colon :: rest) := by
      simp [parse_space_list, parse_disjunction, peekSpaceTerm]
    have hloop : commaLoop [a] (.comma :: .atom b sp2 :: .colon :: rest) =
        .ok ([a, b], .colon :: rest) := by
      rw [commaLoop_step [a] (by rfl) hsb]
      exact commaLoop_break [a, b] (.colon :: rest) (by simp)
    have hcl : parse_comma_list false (.atom a sp :: .comma :: .atom b sp2 :: .colon :: rest) =
        .ok (.list .comma false [a, b] false, .colon :: rest) := by
      unfold parse_comma_list
      rw [hsl]
      simp only [peekListTerm, isListTerm, Bool.false_eq_true, if_false]
      rw [hloop]
    unfold parse_map parse_list
    rw [hcl]
    simp [Expression.isCommaList]

/-- C4 witness: the single-entry general shape at a concrete key/value. -/
theorem C4_map_literal_witness :
    parse_map [.atom (.string_constant ['a'] false) false, .colon,
        .atom (.number 1 [] true true) false, .rparen] =
      .ok (.list .hash false [.string_constant ['a'] false, .number 1 [] true true] false,
        [.rparen]) := by
  have h := C4_map_literal.2.1 (.string_constant ['a'] false) (.number 1 [] true true)
    false false [.rparen] (by rfl) (by rfl) (by simp)
  simpa [Expression.set_delayed, Expression.with_delayed] using h

set_option maxRecDepth 8192 in
theorem fold_loop_done (base : Expression) (operands : List Expression)
    (ops : List Operand) (i : Nat) (h : ¬ i < operands.length) :
    fold_loop base operands ops i = (base, false) := by
  rw [fold_loop.eq_def, dif_neg h]

theorem fold_operands_number (v : ℚ) (u : List Char) (z dl : Bool)
    (operands : List Expression) (ops : List Operand) (i : Nat) :
    fold_operands (.number v u z dl) operands ops i =
      fold_finish (fold_loop (.number v u z dl) operands ops i) := by
  rw [fold_operands.eq_def]

theorem fold_loop_step_number (base : Expression) (operands : List Expression)
    (ops : List Operand) (i : Nat) (v : ℚ) (u : List Char) (z dl : Bool)
    (h : i < operands.length) (hoi : operands.getD i dfltExpr = .number v u z dl) :
    fold_loop base operands ops i =
      fold_loop
        (if (ops.getD i dfltOp).operand = .DIV ∧ base.is_delayed ∧
            (Expression.number v u z dl).is_delayed
         then (Expression.binary (ops.getD i dfltOp) base (.number v u z dl)
            false).with_delayed true
         else .binary (ops.getD i dfltOp) base (.number v u z dl) false)
        operands ops (i + 1) := by
  conv_lhs => rw [fold_loop.eq_def]
  rw [dif_pos h, hoi]

set_option maxHeartbeats 2000000 in
/-- C1: folding two numeric operands joined by `/` builds a `Binary_Expression`
with operator DIV, the operands untouched (no division computed), whose
`is_delayed` flag is set exactly when both operands are delayed (conjunct 1);
freshly lexed dimensions are delayed, so `16px/24px` folds to a delayed
`Binary(Div, Number(16,"px"), Number(24,"px"))` (conjunct 2), and a following
`Serif` token makes the value a space list with that expression as first
element (conjunct 3). -/
theorem C1_delayed_division :
    (∀ (v1 v2 : ℚ) (u1 u2 : List Char) (z1 z2 d1 d2 wsb wsa : Bool),
      fold_operands (.number v1 u1 z1 d1) [.number v2 u2 z2 d2] [⟨.DIV, wsb, wsa⟩] 0 =
        .binary ⟨.DIV, wsb, wsa⟩ (.number v1 u1 z1 d1) (.number v2 u2 z2 d2) (d1 && d2)) ∧
    (fold_operands (lexed_dimension "16px".toList) [lexed_dimension "24px".toList]
        [⟨.DIV, false, false⟩] 0 =
      .binary ⟨.DIV, false, false⟩ (.number 16 ['p', 'x'] true true)
        (.number 24 ['p', 'x'] true true) true) ∧
    (parse_space_list
        [.atom (fold_operands (lexed_dimension "16px".toList) [lexed_dimension "24px".toList]
          [⟨.DIV, false, false⟩] 0) false,
         .atom (.string_constant "Serif".toList false) false] =
      .ok (.list .space false
        [.binary ⟨.DIV, false, false⟩ (.number 16 ['p', 'x'] true true)
          (.number 24 ['p', 'x'] true true) true,
         .string_constant "Serif".toList false] false, [])) := by
  have hgen : ∀ (v1 v2 : ℚ) (u1 u2 : List Char) (z1 z2 d1 d2 wsb wsa : Bool),
      fold_operands (.number v1 u1 z1 d1) [.number v2 u2 z2 d2] [⟨.DIV, wsb, wsa⟩] 0 =
        .binary ⟨.DIV, wsb, wsa⟩ (.number v1 u1 z1 d1) (.number v2 u2 z2 d2) (d1 && d2) := by
    intro v1 v2 u1 u2 z1 z2 d1 d2 wsb wsa
    rw [fold_operands_number,
      fold_loop_step_number (.number v1 u1 z1 d1) [.number v2 u2 z2 d2]
        [⟨.DIV, wsb, wsa⟩] 0 v2 u2 z2 d2 (by simp) rfl,
      fold_loop_done _ _ _ _ (by simp)]
    cases d1 <;> cases d2 <;>
      simp [Expression.is_delayed, Expression.with_delayed, fold_finish,
        Expression.isBinary, Expression.set_delayed]
  have h16 : lexed_dimension "16px".toList = .number 16 ['p', 'x'] true true := by
    simp [lexed_dimension, findFirstNotOf, numberMatchLen, expLen, sass_strtod, digitsVal,
      digitVal, isSpaceChar, spaceSet, numSet, charAt, isNumberChar, number_has_zero,
      splitSign, headIs, signLen, readExponent]
  have h24 : lexed_dimension "24px".toList = .number 24 ['p', 'x'] true true := by
    simp [lexed_dimension, findFirstNotOf, numberMatchLen, expLen, sass_strtod, digitsVal,
      digitVal, isSpaceChar, spaceSet, numSet, charAt, isNumberChar, number_has_zero,
      splitSign, headIs, signLen, readExponent]
  have hfold : fold_operands (lexed_dimension "16px".toList) [lexed_dimension "24px".toList]
      [⟨.DIV, false, false⟩] 0 =
      .binary ⟨.DIV, false, false⟩ (.number 16 ['p', 'x'] true true)
        (.number 24 ['p', 'x'] true true) true := by
    rw [h16, h24]
    simpa using hgen 16 24 ['p', 'x'] ['p', 'x'] true true true true false false
  refine ⟨hgen, hfold, ?_⟩
  rw [hfold]
  simp [parse_space_list, parse_disjunction, peekSpaceTerm, takeAtoms]

/-! ### Number round-trip: supporting lemmas -/

theorem digitChar_isDigit {d : Nat} (h : d < 10) : (digitChar d).isDigit = true := by
  interval_cases d <;> decide

theorem digitVal_digitChar {d : Nat} (h : d < 10) : digitVal (digitChar d) = d := by
  interval_cases d <;> decide

theorem digitChar_in_numSet {d : Nat} (h : d < 10) :
    numSet.contains (digitChar d) = true := by
  interval_cases d <;> decide

theorem digitChar_not_space {d : Nat} (h : d < 10) : isSpaceChar (digitChar d) = false := by
  interval_cases d <;> decide

theorem digitChar_ne_dash {d : Nat} (h : d < 10) : (digitChar d = '-') = False := by
  interval_cases d <;> decide

theorem digitChar_ne_plus {d : Nat} (h : d < 10) : (digitChar d = '+') = False := by
  interval_cases d <;> decide

theorem digitChar_ne_dot {d : Nat} (h : d < 10) : (digitChar d = '.') = False := by
  interval_cases d <;> decide

theorem takeWhile_append_all {p : Char → Bool} {xs : List Char} (ys : List Char)
    (h : ∀ c ∈ xs, p c = true) :
    (xs ++ ys).takeWhile p = xs ++ ys.takeWhile p := by
  induction xs with
  | nil => simp
  | cons a tl ih =>
    have ha : p a = true := h a (by simp)
    simp only [List.cons_append, List.takeWhile_cons_of_pos ha, List.cons.injEq, true_and]
    exact ih (fun c hc => h c (by simp [hc]))

theorem dropWhile_append_all {p : Char → Bool} {xs : List Char} (ys : List Char)
    (h : ∀ c ∈ xs, p c = true) :
    (xs ++ ys).dropWhile p = ys.dropWhile p := by
  induction xs with
  | nil => simp
  | cons a tl ih =>
    have ha : p a = true := h a (by simp)
    simp only [List.cons_append, List.dropWhile_cons_of_pos ha]
    exact ih (fun c hc => h c (by simp [hc]))

theorem takeWhile_head_neg {p : Char → Bool} {c : Char} (tl : List Char) (h : p c = false) :
    (c :: tl).takeWhile p = [] := by
  simp [List.takeWhile_cons, h]

theorem dropWhile_head_neg {p : Char → Bool} {c : Char} (tl : List Char) (h : p c = false) :
    (c :: tl).dropWhile p = c :: tl := by
  simp [List.dropWhile_cons, h]

theorem findFirstNotOf_spec (pre : List Char) (c : Char) (tl set : List Char)
    (h : ∀ x ∈ pre, set.contains x = true) (hc : set.contains c = false) :
    findFirstNotOf (pre ++ c :: tl) set 0 = some pre.length := by
  unfold findFirstNotOf
  rw [List.drop_zero, List.findIdx?_append]
  have h1 : pre.findIdx? (fun x => ! set.contains x) = none := by
    rw [List.findIdx?_eq_none_iff]
    intro x hx
    simpa using h x hx
  have h2 : (c :: tl).findIdx? (fun x => ! set.contains x) = some 0 := by
    simp only [List.findIdx?_cons, hc, Bool.not_false, if_true]
  rw [h1, h2]
  simp [Option.or]

theorem findFirstNotOf_head {c : Char} (tl set : List Char) (hc : set.contains c = false) :
    findFirstNotOf (c :: tl) set 0 = some 0 := by
  simpa using findFirstNotOf_spec [] c tl set (by simp) hc

theorem charAt_append_right {pre rest : List Char} {i : Nat} (h : pre.length ≤ i) :
    charAt (pre ++ rest) i = charAt rest (i - pre.length) := by
  unfold charAt
  exact List.getD_append_right pre rest _ i h

theorem unitChar_not_digit {c : Char} (h : unitChar c = true) : c.isDigit = false := by
  simp [unitChar] at h
  simp [h.1]

theorem unitChar_ne_of_mem {c x : Char} (h : unitChar c = true) (hx : numSet.contains x = true)
    : (c = x) = False := by
  simp only [eq_iff_iff, iff_false]
  intro hcx
  subst hcx
  simp [unitChar] at h
  exact h.1.2 (by simpa using hx)

theorem signLen_unit {u : List Char} (h : ∀ c ∈ u, unitChar c = true) : signLen u = 0 := by
  cases u with
  | nil => rfl
  | cons c tl =>
    have hc := h c (by simp)
    have h1 : (c = '-') = False := unitChar_ne_of_mem hc (by decide)
    have h2 : (c = '+') = False := unitChar_ne_of_mem hc (by decide)
    simp [signLen, h1, h2]

theorem expLen_unit {u : List Char} (h : ∀ c ∈ u, unitChar c = true) : expLen u = 0 := by
  unfold expLen
  cases u with
  | nil => rfl
  | cons c tl =>
    by_cases hc : c = 'e'
    · subst hc
      have hs : signLen tl = 0 := signLen_unit (fun x hx => h x (by simp [hx]))
      simp only [headIs, decide_True, if_true, List.drop_one, List.tail_cons, hs, List.drop_zero]
      cases tl with
      | nil => simp
      | cons c2 tl2 =>
        have hd : c2.isDigit = false := unitChar_not_digit (h c2 (by simp))
        rw [takeWhile_head_neg tl2 hd]
        simp
    · simp [headIs, hc]

theorem foldl_digitsVal_map (ds : List Nat) (h : ∀ d ∈ ds, d < 10) :
    ∀ a : Nat, List.foldl (fun a c => a * 10 + digitVal c) a (ds.map digitChar) =
      List.foldl (fun a d => a * 10 + d) a ds := by
  induction ds with
  | nil => intro a; rfl
  | cons d tl ih =>
    intro a
    simp only [List.map_cons, List.foldl_cons]
    rw [digitVal_digitChar (h d (by simp))]
    exact ih (fun x hx => h x (by simp [hx])) _

theorem digitsVal_map (ds : List Nat) (h : ∀ d ∈ ds, d < 10) :
    digitsVal (ds.map digitChar) = digitsToNat ds :=
  foldl_digitsVal_map ds h 0

theorem NumText.text_eq (t : NumText) :
    t.text = numChars t.neg t.intDigits t.fracDigits ++ t.unit := by
  unfold NumText.text numChars
  simp [List.append_assoc]

theorem NumText.val_eq (t : NumText) :
    t.val = decVal t.neg t.intDigits t.fracDigits := by
  unfold NumText.val decVal
  cases t.neg <;> simp

theorem numChars_eq (neg : Bool) (ids : List Nat) (fds : Option (List Nat)) :
    numChars neg ids fds = (if neg then ['-'] else []) ++ (ids.map digitChar ++ fpart fds) := by
  unfold numChars fpart
  cases fds <;> simp

theorem takeWhile_digits_map (ds : List Nat) (h : ∀ d ∈ ds, d < 10) :
    (ds.map digitChar).takeWhile Char.isDigit = ds.map digitChar := by
  have hd : ∀ c ∈ ds.map digitChar, c.isDigit = true := by
    intro c hc
    obtain ⟨d, hdm, rfl⟩ := List.mem_map.mp hc
    exact digitChar_isDigit (h d hdm)
  simpa using takeWhile_append_all ([] : List Char) hd

theorem dropWhile_digits_map (ds : List Nat) (h : ∀ d ∈ ds, d < 10) :
    (ds.map digitChar).dropWhile Char.isDigit = [] := by
  have hd : ∀ c ∈ ds.map digitChar, c.isDigit = true := by
    intro c hc
    obtain ⟨d, hdm, rfl⟩ := List.mem_map.mp hc
    exact digitChar_isDigit (h d hdm)
  simpa using dropWhile_append_all ([] : List Char) hd

theorem takeWhile_body (ids : List Nat) (fds : Option (List Nat))
    (hi : ∀ d ∈ ids, d < 10) :
    (ids.map digitChar ++ fpart fds).takeWhile Char.isDigit = ids.map digitChar := by
  have hdi : ∀ c ∈ ids.map digitChar, c.isDigit = true := by
    intro c hc
    obtain ⟨d, hd, rfl⟩ := List.mem_map.mp hc
    exact digitChar_isDigit (hi d hd)
  rw [takeWhile_append_all _ hdi]
  cases fds with
  | none => simp [fpart]
  | some fs =>
    rw [show fpart (some fs) = '.' :: fs.map digitChar from rfl,
      takeWhile_head_neg _ (by decide), List.append_nil]

theorem dropWhile_body (ids : List Nat) (fds : Option (List Nat))
    (hi : ∀ d ∈ ids, d < 10) :
    (ids.map digitChar ++ fpart fds).dropWhile Char.isDigit = fpart fds := by
  have hdi : ∀ c ∈ ids.map digitChar, c.isDigit = true := by
    intro c hc
    obtain ⟨d, hd, rfl⟩ := List.mem_map.mp hc
    exact digitChar_isDigit (hi d hd)
  rw [dropWhile_append_all _ hdi]
  cases fds with
  | none => simp [fpart]
  | some fs =>
    exact dropWhile_head_neg _ (by decide)

theorem sass_strtod_numChars (neg : Bool) (ids : List Nat) (fds : Option (List Nat))
    (hi : ∀ d ∈ ids, d < 10) (hf : ∀ fs, fds = some fs → ∀ d ∈ fs, d < 10)
    (hne : ids = [] → fds ≠ none) :
    sass_strtod (numChars neg ids fds) = decVal neg ids fds := by
  have hbody : (ids.map digitChar ++ fpart fds) ≠ [] ∧
      isSpaceChar ((ids.map digitChar ++ fpart fds).headD 'x') = false ∧
      ((ids.map digitChar ++ fpart fds).headD 'x' = '-') = False ∧
      ((ids.map digitChar ++ fpart fds).headD 'x' = '+') = False := by
    cases ids with
    | cons d tl =>
      refine ⟨by simp, ?_, ?_, ?_⟩
      · simpa using digitChar_not_space (hi d (by simp))
      · simpa using digitChar_ne_dash (hi d (by simp))
      · simpa using digitChar_ne_plus (hi d (by simp))
    | nil =>
      cases fds with
      | none => exact absurd rfl (hne rfl)
      | some fs => refine ⟨by simp [fpart], by simp [fpart, isSpaceChar], by simp [fpart], by simp [fpart]⟩
  obtain ⟨hb1, hb2, hb3, hb4⟩ := hbody
  obtain ⟨c, body, hcons⟩ : ∃ c body, ids.map digitChar ++ fpart fds = c :: body := by
    rcases hx : ids.map digitChar ++ fpart fds with _ | ⟨c, body⟩
    · exact absurd hx hb1
    · exact ⟨c, body, rfl⟩
  rw [hcons] at hb2 hb3 hb4
  simp only [List.headD_cons] at hb2 hb3 hb4
  have hdropsp : ∀ pre : List Char, (pre = [] ∨ pre = ['-']) →
      (pre ++ c :: body).dropWhile isSpaceChar = pre ++ c :: body := by
    intro pre hpre
    rcases hpre with rfl | rfl
    · simpa using dropWhile_head_neg body hb2
    · exact dropWhile_head_neg _ (by decide)
  have htk := takeWhile_body ids fds hi
  have hdp := dropWhile_body ids fds hi
  rw [hcons] at htk hdp
  have hqfacts : ∀ s3 : List Char, s3 = fpart fds →
      (if headIs s3 '.' then
        ((s3.drop 1).takeWhile Char.isDigit, (s3.drop 1).dropWhile Char.isDigit)
       else ([], s3)) =
      ((match fds with
        | some fs => fs.map digitChar
        | none => []), ([] : List Char)) := by
    intro s3 hs3
    cases fds with
    | none => simp [hs3, fpart, headIs]
    | some fs =>
      have hfd := hf fs rfl
      simp [hs3, fpart, headIs, takeWhile_digits_map fs hfd, dropWhile_digits_map fs hfd]
  unfold sass_strtod
  rw [numChars_eq, hcons]
  cases neg with
  | true =>
    rw [show ((if true then ['-'] else []) ++ c :: body : List Char) = '-' :: c :: body from rfl]
    rw [dropWhile_head_neg _ (by decide)]
    simp only [splitSign]
    simp only [if_true, eq_self_iff_true, if_pos]
    simp only [htk, hdp, hqfacts (fpart fds) rfl]
    rw [if_neg (by decide : ¬ (headIs ([] : List Char) 'e' = true ∨ headIs ([] : List Char) 'E' = true))]
    rw [digitsVal_map ids hi]
    unfold decVal
    rw [if_pos rfl]
    cases fds with
    | none => simp [digitsVal]
    | some fs =>
      have hfd := hf fs rfl
      simp [digitsVal_map fs hfd]
  | false =>
    rw [show ((if false then ['-'] else []) ++ c :: body : List Char) = c :: body from rfl]
    rw [dropWhile_head_neg _ hb2]
    simp only [splitSign]
    rw [if_neg (by rw [hb3]; exact id), if_neg (by rw [hb4]; exact id)]
    simp only [htk, hdp, hqfacts (fpart fds) rfl]
    rw [if_neg (by decide : ¬ (headIs ([] : List Char) 'e' = true ∨ headIs ([] : List Char) 'E' = true))]
    rw [digitsVal_map ids hi]
    unfold decVal
    rw [if_neg (by simp)]
    cases fds with
    | none => simp [digitsVal]
    | some fs =>
      have hfd := hf fs rfl
      simp [digitsVal_map fs hfd]

theorem takeWhile_unit {u : List Char} (hu : ∀ c ∈ u, unitChar c = true) :
    u.takeWhile Char.isDigit = [] := by
  cases u with
  | nil => rfl
  | cons c tl => exact takeWhile_head_neg tl (unitChar_not_digit (hu c (by simp)))

theorem dropWhile_unit {u : List Char} (hu : ∀ c ∈ u, unitChar c = true) :
    u.dropWhile Char.isDigit = u := by
  cases u with
  | nil => rfl
  | cons c tl => exact dropWhile_head_neg tl (unitChar_not_digit (hu c (by simp)))

theorem headIs_unit_dot {u : List Char} (hu : ∀ c ∈ u, unitChar c = true) :
    headIs u '.' = false := by
  cases u with
  | nil => rfl
  | cons c tl =>
    have := unitChar_ne_of_mem (hu c (by simp)) (x := '.') (by decide)
    simp [headIs, this]

theorem takeWhile_body_unit (ids : List Nat) (fds : Option (List Nat)) (u : List Char)
    (hi : ∀ d ∈ ids, d < 10) (hu : ∀ c ∈ u, unitChar c = true) :
    ((ids.map digitChar ++ fpart fds) ++ u).takeWhile Char.isDigit = ids.map digitChar := by
  rw [List.append_assoc]
  have hdi : ∀ c ∈ ids.map digitChar, c.isDigit = true := by
    intro c hc
    obtain ⟨d, hd, rfl⟩ := List.mem_map.mp hc
    exact digitChar_isDigit (hi d hd)
  rw [takeWhile_append_all _ hdi]
  cases fds with
  | none =>
    rw [show fpart none = ([] : List Char) from rfl, List.nil_append, takeWhile_unit hu,
      List.append_nil]
  | some fs =>
    rw [show fpart (some fs) = '.' :: fs.map digitChar from rfl, List.cons_append,
      takeWhile_head_neg _ (by decide), List.append_nil]

theorem dropWhile_body_unit (ids : List Nat) (fds : Option (List Nat)) (u : List Char)
    (hi : ∀ d ∈ ids, d < 10) (hu : ∀ c ∈ u, unitChar c = true) :
    ((ids.map digitChar ++ fpart fds) ++ u).dropWhile Char.isDigit = fpart fds ++ u := by
  rw [List.append_assoc]
  have hdi : ∀ c ∈ ids.map digitChar, c.isDigit = true := by
    intro c hc
    obtain ⟨d, hd, rfl⟩ := List.mem_map.mp hc
    exact digitChar_isDigit (hi d hd)
  rw [dropWhile_append_all _ hdi]
  cases fds with
  | none =>
    rw [show fpart none = ([] : List Char) from rfl, List.nil_append, dropWhile_unit hu]
  | some fs =>
    rw [show fpart (some fs) = '.' :: fs.map digitChar from rfl, List.cons_append,
      dropWhile_head_neg _ (by decide)]

theorem numberMatchLen_decomp (neg : Bool) (ids : List Nat) (fds : Option (List Nat))
    (u : List Char) (hi : ∀ d ∈ ids, d < 10)
    (hf : ∀ fs, fds = some fs → (∀ d ∈ fs, d < 10) ∧ fs ≠ [])
    (hne : ids = [] → fds ≠ none)
    (hu : ∀ c ∈ u, unitChar c = true) :
    numberMatchLen (numChars neg ids fds ++ u) = some (numChars neg ids fds).length := by
  have hsign : signLen (numChars neg ids fds ++ u) = if neg then 1 else 0 := by
    rw [numChars_eq]
    cases neg with
    | true => rfl
    | false =>
      show signLen ((([] : List Char) ++ (ids.map digitChar ++ fpart fds)) ++ u) = 0
      rw [List.nil_append]
      cases ids with
      | cons d tl =>
        have h1 := digitChar_ne_dash (hi d (by simp))
        have h2 := digitChar_ne_plus (hi d (by simp))
        simp [signLen, h1, h2]
      | nil =>
        cases fds with
        | none => exact absurd rfl (hne rfl)
        | some fs => simp [fpart, signLen]
  have hdrop1 : (numChars neg ids fds ++ u).drop (signLen (numChars neg ids fds ++ u)) =
      (ids.map digitChar ++ fpart fds) ++ u := by
    rw [hsign, numChars_eq]
    cases neg with
    | true => simp
    | false => simp
  have htk := takeWhile_body_unit ids fds u hi hu
  have hdp := dropWhile_body_unit ids fds u hi hu
  unfold numberMatchLen
  simp only [hdrop1]
  simp only [htk, hdp]
  simp only [hsign]
  cases fds with
  | none =>
    have hids : ids ≠ [] := by
      intro hc
      exact hne hc rfl
    have hmap : (ids.map digitChar).isEmpty = false := by
      cases ids with
      | nil => exact absurd rfl hids
      | cons d tl => rfl
    have hlen : (numChars neg ids none).length =
        (if neg = true then 1 else 0) + ids.length := by
      rw [numChars_eq]
      cases neg <;> simp [fpart] <;> omega
    rw [show fpart none = ([] : List Char) from rfl, List.nil_append]
    simp only [hmap, Bool.false_eq_true, if_false, headIs_unit_dot hu, expLen_unit hu]
    rw [hlen]
    cases neg <;> simp <;> omega
  | some fs =>
    have hlen : (numChars neg ids (some fs)).length =
        (if neg = true then 1 else 0) + ids.length + (1 + fs.length) := by
      rw [numChars_eq]
      cases neg <;> simp [fpart] <;> omega
    obtain ⟨hfd, hfne⟩ := hf fs rfl
    have hfmap : (fs.map digitChar).isEmpty = false := by
      cases fs with
      | nil => exact absurd rfl hfne
      | cons d tl => rfl
    rw [show fpart (some fs) = '.' :: fs.map digitChar from rfl]
    have hdot : headIs (('.' :: fs.map digitChar) ++ u) '.' = true := by
      simp [headIs]
    have hdrop2 : (('.' :: fs.map digitChar) ++ u).drop 1 = fs.map digitChar ++ u := by
      simp
    have htkf : (fs.map digitChar ++ u).takeWhile Char.isDigit = fs.map digitChar := by
      have hfdi : ∀ c ∈ fs.map digitChar, c.isDigit = true := by
        intro c hc
        obtain ⟨d, hd, rfl⟩ := List.mem_map.mp hc
        exact digitChar_isDigit (hfd d hd)
      rw [takeWhile_append_all _ hfdi, takeWhile_unit hu, List.append_nil]
    have hdpf : (fs.map digitChar ++ u).dropWhile Char.isDigit = u := by
      have hfdi : ∀ c ∈ fs.map digitChar, c.isDigit = true := by
        intro c hc
        obtain ⟨d, hd, rfl⟩ := List.mem_map.mp hc
        exact digitChar_isDigit (hfd d hd)
      rw [dropWhile_append_all _ hfdi, dropWhile_unit hu]
    cases hids : ids with
    | nil =>
      simp only [hids, List.map_nil, List.isEmpty_nil, if_true, hdot, hdrop2, htkf, hdpf,
        hfmap, Bool.false_eq_true, if_false, expLen_unit hu]
      rw [hids] at hlen
      rw [hlen]
      cases neg <;> simp <;> omega
    | cons d tl =>
      have hmap : ((d :: tl).map digitChar).isEmpty = false := rfl
      simp only [hids, hmap, Bool.false_eq_true, if_false, hdot, if_true, hdrop2, htkf, hdpf,
        hfmap, expLen_unit hu]
      rw [hids] at hlen
      rw [hlen]
      cases neg <;> simp <;> omega

theorem wf_parts (t : NumText) (h : t.wf = true) :
    (∀ d ∈ t.intDigits, d < 10) ∧
    (∀ fs, t.fracDigits = some fs → (∀ d ∈ fs, d < 10) ∧ fs ≠ []) ∧
    (t.intDigits = [] → t.fracDigits ≠ none) ∧
    t.unit ≠ [] ∧ (∀ c ∈ t.unit, unitChar c = true) := by
  unfold NumText.wf at h
  simp only [Bool.and_eq_true, List.all_eq_true, decide_eq_true_eq, Bool.or_eq_true,
    Bool.not_eq_true'] at h
  obtain ⟨⟨⟨⟨h1, h2⟩, h3⟩, h4⟩, h5⟩ := h
  refine ⟨h1, ?_, ?_, ?_, ?_⟩
  · intro fs hfs
    rw [hfs] at h2
    simp only [Bool.and_eq_true, List.all_eq_true, decide_eq_true_eq,
      Bool.not_eq_true'] at h2
    exact ⟨h2.1, by simpa using h2.2⟩
  · intro hint hnone
    rw [hnone] at h3
    rcases h3 with h3 | h3
    · rw [hint] at h3
      simp at h3
    · simp at h3
  · simpa using h4
  · intro c hc
    have hx := h5 c hc
    simp only [unitChar, Bool.and_eq_true, Bool.not_eq_true']
    exact hx

theorem numSet_not_space {c : Char} (hc : numSet.contains c = true) :
    spaceSet.contains c = false := by
  have hmem : c ∈ (['-', '+', '0', '1', '2', '3', '4', '5', '6', '7', '8', '9', '.'] :
      List Char) := by
    simpa [numSet] using hc
  fin_cases hmem <;> decide

theorem unitChar_not_numberChar {c : Char} (h : unitChar c = true) :
    isNumberChar c = false := by
  have h1 : (c = '-') = False := unitChar_ne_of_mem h (by decide)
  have h2 : (c = '+') = False := unitChar_ne_of_mem h (by decide)
  have hd : c.isDigit = false := unitChar_not_digit h
  simp [isNumberChar, hd, h1, h2]

theorem numChars_mem_numSet (t : NumText) (hi : ∀ d ∈ t.intDigits, d < 10)
    (hf : ∀ fs, t.fracDigits = some fs → (∀ d ∈ fs, d < 10) ∧ fs ≠ []) :
    ∀ x ∈ numChars t.neg t.intDigits t.fracDigits, numSet.contains x = true := by
  intro x hx
  rw [numChars_eq] at hx
  simp only [List.mem_append] at hx
  rcases hx with hx | hx | hx
  · have hx2 : t.neg = true ∧ x = '-' := by simpa using hx
    rcases hx2 with ⟨-, rfl⟩
    decide
  · obtain ⟨d, hd, rfl⟩ := List.mem_map.mp hx
    exact digitChar_in_numSet (hi d hd)
  · cases hfs : t.fracDigits with
    | none =>
      rw [hfs] at hx
      simp [fpart] at hx
    | some fs =>
      rw [hfs] at hx
      simp only [fpart, List.mem_cons] at hx
      rcases hx with rfl | hx
      · decide
      · obtain ⟨d, hd, rfl⟩ := List.mem_map.mp hx
        exact digitChar_in_numSet ((hf fs hfs).1 d hd)

/-- The parse characterization: on a well-formed decomposed number text,
`lexed_dimension` yields the `Number` with the text's exact decimal value,
its unit, the `number_has_zero` flag of the text, and `is_delayed` true. -/
theorem lexed_dimension_decomp (t : NumText) (h : t.wf = true) :
    lexed_dimension t.text = .number t.val t.unit (number_has_zero t.text) true := by
  obtain ⟨hi, hf, hne, hun, hu⟩ := wf_parts t h
  obtain ⟨uc, utl, hu0⟩ : ∃ c tl, t.unit = c :: tl := by
    cases hc : t.unit with
    | nil => exact absurd hc hun
    | cons c tl => exact ⟨c, tl, rfl⟩
  have hP := numChars_mem_numSet t hi hf
  have hPne : numChars t.neg t.intDigits t.fracDigits ≠ [] := by
    rw [numChars_eq]
    intro hc
    rcases List.append_eq_nil.mp hc with ⟨-, hc2⟩
    rcases List.append_eq_nil.mp hc2 with ⟨hc3, hc4⟩
    cases hfs : t.fracDigits with
    | none => exact hne (by simpa using hc3) hfs
    | some fs =>
      rw [hfs] at hc4
      simp [fpart] at hc4
  obtain ⟨pc, pbody, hpc⟩ : ∃ c body,
      numChars t.neg t.intDigits t.fracDigits = c :: body := by
    cases hx : numChars t.neg t.intDigits t.fracDigits with
    | nil => exact absurd hx hPne
    | cons c body => exact ⟨c, body, rfl⟩
  have hpcmem : numSet.contains pc = true := hP pc (by rw [hpc]; simp)
  have hnum_pos : findFirstNotOf (numChars t.neg t.intDigits t.fracDigits ++ t.unit)
      spaceSet 0 = some 0 := by
    rw [hpc, List.cons_append]
    exact findFirstNotOf_head _ _ (numSet_not_space hpcmem)
  have hucontain : numSet.contains uc = false := by
    have := hu uc (by rw [hu0]; simp)
    simp only [unitChar, Bool.and_eq_true, Bool.not_eq_true'] at this
    exact this.1.2
  have hupA : findFirstNotOf (numChars t.neg t.intDigits t.fracDigits ++ t.unit) numSet 0 =
      some (numChars t.neg t.intDigits t.fracDigits).length := by
    rw [hu0]
    exact findFirstNotOf_spec _ uc utl numSet hP hucontain
  have hnext : isNumberChar (charAt (numChars t.neg t.intDigits t.fracDigits ++ t.unit)
      ((numChars t.neg t.intDigits t.fracDigits).length + 1)) = false := by
    rw [charAt_append_right (by omega)]
    have heq : (numChars t.neg t.intDigits t.fracDigits).length + 1 -
        (numChars t.neg t.intDigits t.fracDigits).length = 1 := by omega
    rw [heq, hu0]
    cases utl with
    | nil => exact show isNumberChar '\x00' = false from by decide
    | cons c2 tl2 =>
      have hc2 : unitChar c2 = true := hu c2 (by rw [hu0]; simp)
      exact unitChar_not_numberChar hc2
  have hcond : ¬ (charAt (numChars t.neg t.intDigits t.fracDigits ++ t.unit)
      (numChars t.neg t.intDigits t.fracDigits).length = 'e' ∧
      isNumberChar (charAt (numChars t.neg t.intDigits t.fracDigits ++ t.unit)
        ((numChars t.neg t.intDigits t.fracDigits).length + 1)) = true) := by
    intro hc
    rw [hnext] at hc
    exact absurd hc.2 (by simp)
  have hml := numberMatchLen_decomp t.neg t.intDigits t.fracDigits t.unit hi hf hne hu
  have hnum : ((numChars t.neg t.intDigits t.fracDigits ++ t.unit).drop 0).take
      ((numChars t.neg t.intDigits t.fracDigits).length - 0) =
      numChars t.neg t.intDigits t.fracDigits := by
    rw [List.drop_zero, Nat.sub_zero]
    exact List.take_left _ _
  have hstr := sass_strtod_numChars t.neg t.intDigits t.fracDigits hi
    (fun fs hfs => (hf fs hfs).1) hne
  rw [NumText.text_eq]
  unfold lexed_dimension
  simp only [hnum_pos, Option.getD_some]
  simp only [hupA, Option.getD_some]
  rw [if_neg hcond]
  simp only [Option.getD_some]
  simp only [hml]
  rw [hnum, hstr, List.drop_left, ← NumText.val_eq]

theorem digitsToNat_append (xs : List Nat) (d : Nat) :
    digitsToNat (xs ++ [d]) = digitsToNat xs * 10 + d := by
  unfold digitsToNat
  rw [List.foldl_append]
  rfl

theorem natDigitsAux_val : ∀ fuel n, n ≤ fuel → digitsToNat (natDigitsAux n fuel) = n := by
  intro fuel
  induction fuel with
  | zero =>
    intro n h
    interval_cases n
    rfl
  | succ k ih =>
    intro n h
    show digitsToNat (if n < 10 then [n] else natDigitsAux (n / 10) k ++ [n % 10]) = n
    by_cases h10 : n < 10
    · rw [if_pos h10]
      simp [digitsToNat]
    · rw [if_neg h10, digitsToNat_append, ih (n / 10) (by omega)]
      omega

theorem natDigits_val (n : Nat) : digitsToNat (natDigits n) = n :=
  natDigitsAux_val (n + 1) n (by omega)

theorem natDigitsAux_lt : ∀ fuel n, ∀ d ∈ natDigitsAux n fuel, d < 10 := by
  intro fuel
  induction fuel with
  | zero => intro n d hd; simp [natDigitsAux] at hd
  | succ k ih =>
    intro n d hd
    rw [show natDigitsAux n (k + 1) =
      (if n < 10 then [n] else natDigitsAux (n / 10) k ++ [n % 10]) from rfl] at hd
    by_cases h10 : n < 10
    · rw [if_pos h10] at hd
      simp at hd
      omega
    · rw [if_neg h10] at hd
      simp only [List.mem_append, List.mem_singleton] at hd
      rcases hd with hd | rfl
      · exact ih (n / 10) d hd
      · omega

theorem natDigits_lt (n : Nat) : ∀ d ∈ natDigits n, d < 10 :=
  natDigitsAux_lt (n + 1) n

theorem natDigitsAux_ne_nil (k n : Nat) : natDigitsAux n (k + 1) ≠ [] := by
  show (if n < 10 then [n] else natDigitsAux (n / 10) k ++ [n % 10]) ≠ []
  by_cases h10 : n < 10
  · simp [h10]
  · simp [h10]

theorem natDigits_ne_nil (n : Nat) : natDigits n ≠ [] :=
  natDigitsAux_ne_nil n n

theorem natDigitsAux_length : ∀ fuel n k, n ≤ fuel → n < 10 ^ k → 1 ≤ k →
    (natDigitsAux n fuel).length ≤ k := by
  intro fuel
  induction fuel with
  | zero =>
    intro n k h _ _
    interval_cases n
    simpa [natDigitsAux] using by omega
  | succ f ih =>
    intro n k h hk h1
    show (if n < 10 then [n] else natDigitsAux (n / 10) f ++ [n % 10]).length ≤ k
    by_cases h10 : n < 10
    · simp [h10]
      omega
    · rw [if_neg h10]
      have hk2 : 2 ≤ k := by
        by_contra hc
        interval_cases k
        omega
      have hdiv : n / 10 < 10 ^ (k - 1) := by
        rw [Nat.div_lt_iff_lt_mul (by omega)]
        calc n < 10 ^ k := hk
        _ = 10 ^ (k - 1) * 10 := by
          rw [← Nat.pow_succ]
          congr 1
          omega
      have := ih (n / 10) (k - 1) (by omega) hdiv (by omega)
      simp only [List.length_append, List.length_cons, List.length_nil]
      omega

theorem natDigitsAux_head_pos : ∀ fuel n, n ≤ fuel → 0 < n →
    (natDigitsAux n fuel).headD 0 ≠ 0 := by
  intro fuel
  induction fuel with
  | zero => intro n h hp; omega
  | succ k ih =>
    intro n h hp
    show (if n < 10 then [n] else natDigitsAux (n / 10) k ++ [n % 10]).headD 0 ≠ 0
    by_cases h10 : n < 10
    · simpa [h10] using by omega
    · rw [if_neg h10]
      have hne := natDigitsAux_ne_nil (k - 1) (n / 10)
      have hk1 : k - 1 + 1 = k := by
        rcases k with _ | k2
        · exfalso
          omega
        · omega
      rw [hk1] at hne
      obtain ⟨a, tl, ha⟩ : ∃ a tl, natDigitsAux (n / 10) k = a :: tl := by
        cases hx : natDigitsAux (n / 10) k with
        | nil => exact absurd hx hne
        | cons a tl => exact ⟨a, tl, rfl⟩
      have := ih (n / 10) (by omega) (by omega)
      rw [ha] at this ⊢
      simpa using this

theorem digitsToNat_replicate_zero (m : Nat) (ds : List Nat) :
    digitsToNat (List.replicate m 0 ++ ds) = digitsToNat ds := by
  induction m with
  | zero => simp
  | succ k ih =>
    rw [List.replicate_succ, List.cons_append]
    show digitsToNat (List.replicate k 0 ++ ds) = digitsToNat ds
    exact ih

theorem digitsToNat_lt (ds : List Nat) (h : ∀ d ∈ ds, d < 10) :
    digitsToNat ds < 10 ^ ds.length := by
  suffices hgen : ∀ a, List.foldl (fun a d => a * 10 + d) a ds < (a + 1) * 10 ^ ds.length by
    have := hgen 0
    simpa [digitsToNat] using this
  induction ds with
  | nil => intro a; simp
  | cons d tl ih =>
    intro a
    simp only [List.foldl_cons, List.length_cons]
    have hd : d < 10 := h d (by simp)
    have := ih (fun x hx => h x (by simp [hx])) (a * 10 + d)
    calc List.foldl (fun a d => a * 10 + d) (a * 10 + d) tl
        < (a * 10 + d + 1) * 10 ^ tl.length := this
      _ ≤ ((a + 1) * 10) * 10 ^ tl.length := by
          have : a * 10 + d + 1 ≤ (a + 1) * 10 := by omega
          exact Nat.mul_le_mul_right _ this
      _ = (a + 1) * 10 ^ (tl.length + 1) := by ring

theorem powOfAux_dvd {p : Nat} : ∀ fuel n, n ≤ fuel → p ^ powOfAux p n fuel ∣ n := by
  intro fuel
  induction fuel with
  | zero =>
    intro n h
    interval_cases n
    simp
  | succ k ih =>
    intro n h
    show p ^ (if 2 ≤ p ∧ p ∣ n ∧ n ≠ 0 then 1 + powOfAux p (n / p) k else 0) ∣ n
    by_cases hc : 2 ≤ p ∧ p ∣ n ∧ n ≠ 0
    · rw [if_pos hc]
      obtain ⟨hp, hdvd, hn⟩ := hc
      have hdivle : n / p ≤ k := by
        have : n / p < n := Nat.div_lt_self (by omega) (by omega)
        omega
      have hrec := ih (n / p) hdivle
      have hthis : p * p ^ powOfAux p (n / p) k ∣ p * (n / p) := mul_dvd_mul_left p hrec
      rw [Nat.mul_div_cancel' hdvd] at hthis
      rw [pow_add, pow_one]
      exact hthis
    · rw [if_neg hc]
      simp

theorem powOfAux_succ_not_dvd {p : Nat} (hp : 2 ≤ p) :
    ∀ fuel n, n ≤ fuel → n ≠ 0 → ¬ p ^ (powOfAux p n fuel + 1) ∣ n := by
  intro fuel
  induction fuel with
  | zero => intro n h hn; omega
  | succ k ih =>
    intro n h hn
    show ¬ p ^ ((if 2 ≤ p ∧ p ∣ n ∧ n ≠ 0 then 1 + powOfAux p (n / p) k else 0) + 1) ∣ n
    by_cases hc : 2 ≤ p ∧ p ∣ n ∧ n ≠ 0
    · rw [if_pos hc]
      obtain ⟨-, hdvd, -⟩ := hc
      intro hcon
      have hdivle : n / p ≤ k := by
        have : n / p < n := Nat.div_lt_self (by omega) (by omega)
        omega
      have hdivne : n / p ≠ 0 := by
        have : p ≤ n := Nat.le_of_dvd (by omega) hdvd
        have := Nat.div_pos this (by omega)
        omega
      apply ih (n / p) hdivle hdivne
      have hcon2 : p * p ^ (powOfAux p (n / p) k + 1) ∣ p * (n / p) := by
        have hrw : p * p ^ (powOfAux p (n / p) k + 1) =
            p ^ (1 + powOfAux p (n / p) k + 1) := by ring
        rw [hrw, Nat.mul_div_cancel' hdvd]
        exact hcon
      exact (mul_dvd_mul_iff_left (show p ≠ 0 by omega)).mp hcon2
    · rw [if_neg hc]
      have hnd : ¬ p ∣ n := by
        intro hd
        exact hc ⟨hp, hd, hn⟩
      simpa using hnd

theorem powOf_factorization {p n : Nat} (hp : p.Prime) (hn : n ≠ 0) :
    powOf p n = n.factorization p := by
  have h1 : p ^ powOf p n ∣ n := powOfAux_dvd n n (le_refl n)
  have h2 : ¬ p ^ (powOf p n + 1) ∣ n := powOfAux_succ_not_dvd hp.two_le n n (le_refl n) hn
  have hle : powOf p n ≤ n.factorization p :=
    (Nat.Prime.pow_dvd_iff_le_factorization hp hn).mp h1
  have hge : ¬ (powOf p n + 1 ≤ n.factorization p) := fun hc =>
    h2 ((Nat.Prime.pow_dvd_iff_le_factorization hp hn).mpr hc)
  omega

theorem dvd_ten_max {den j : Nat} (hden : den ≠ 0) (h : den ∣ 10 ^ j) :
    den ∣ 10 ^ (max (powOf 2 den) (powOf 5 den)) := by
  rw [powOf_factorization Nat.prime_two hden, powOf_factorization Nat.prime_five hden]
  have hK : (10 : Nat) ^ (max (den.factorization 2) (den.factorization 5)) ≠ 0 := by
    positivity
  rw [← Nat.factorization_le_iff_dvd hden hK]
  intro p
  have hfp : (10 : Nat).factorization p =
      (Finsupp.single 2 1 + Finsupp.single 5 1 : Nat →₀ Nat) p := by
    rw [show (10 : Nat) = 2 * 5 by norm_num,
      Nat.factorization_mul (by norm_num) (by norm_num),
      Nat.prime_two.factorization, Nat.prime_five.factorization]
  have hpow : ∀ K : Nat, ((10 : Nat) ^ K).factorization p = K * (10 : Nat).factorization p := by
    intro K
    rw [Nat.factorization_pow]
    rfl
  have hbound : den.factorization p ≤ j * (10 : Nat).factorization p := by
    have h10j : (10 : Nat) ^ j ≠ 0 := by positivity
    have := (Nat.factorization_le_iff_dvd hden h10j).mpr h p
    rw [hpow j] at this
    exact this
  rw [hpow]
  by_cases hp2 : p = 2
  · subst hp2
    rw [hfp]
    simp [Finsupp.single_apply]
  · by_cases hp5 : p = 5
    · subst hp5
      rw [hfp]
      simp [Finsupp.single_apply]
    · have hz : (10 : Nat).factorization p = 0 := by
        rw [hfp]
        simp [Finsupp.single_apply, hp2, hp5]
        constructor <;> omega
      rw [hz] at hbound ⊢
      omega

theorem number_has_zero_iff (s : List Char) :
    number_has_zero s = false ↔
      (s.take 1 = ['.'] ∨ s.take 2 = ['0', '.'] ∨ s.take 2 = ['-', '.'] ∨
       s.take 3 = ['-', '0', '.']) := by
  simp only [number_has_zero, Bool.not_eq_false', Bool.or_eq_true, beq_iff_eq, or_assoc]

theorem number_has_zero_true_iff (s : List Char) :
    number_has_zero s = true ↔
      ¬ (s.take 1 = ['.'] ∨ s.take 2 = ['0', '.'] ∨ s.take 2 = ['-', '.'] ∨
         s.take 3 = ['-', '0', '.']) := by
  rw [← number_has_zero_iff]
  cases number_has_zero s <;> simp

theorem digitsToNat_cons_zero (tl : List Nat) : digitsToNat (0 :: tl) = digitsToNat tl := rfl

theorem digitsToNat_single (d : Nat) : digitsToNat [d] = d := by
  simp [digitsToNat]

theorem digitsToNat_eq_zero {ds : List Nat} (h : digitsToNat ds = 0) : ∀ d ∈ ds, d = 0 := by
  suffices hgen : ∀ a : Nat, List.foldl (fun a d => a * 10 + d) a ds = 0 →
      a = 0 ∧ ∀ d ∈ ds, d = 0 by
    exact (hgen 0 h).2
  clear h
  induction ds with
  | nil =>
    intro a ha
    exact ⟨ha, by simp⟩
  | cons d tl ih =>
    intro a ha
    simp only [List.foldl_cons] at ha
    obtain ⟨h1, h2⟩ := ih (a * 10 + d) ha
    refine ⟨by omega, ?_⟩
    intro x hx
    rcases List.mem_cons.mp hx with rfl | hx
    · omega
    · exact h2 x hx

theorem digitChar_ne_zero_char {d : Nat} (h : d < 10) (h0 : d ≠ 0) :
    (digitChar d = '0') = False := by
  interval_cases d <;> first | exact absurd rfl h0 | decide

theorem number_has_zero_dotted (neg : Bool) (fs : List Nat) (u : List Char) :
    number_has_zero (numChars neg [] (some fs) ++ u) = false := by
  rw [number_has_zero_iff]
  cases neg <;> simp [numChars]

theorem number_has_zero_zero_dot (neg : Bool) (fs : List Nat) (u : List Char) :
    number_has_zero (numChars neg [0] (some fs) ++ u) = false := by
  rw [number_has_zero_iff]
  have hch : digitChar 0 = '0' := by decide
  cases neg <;> simp [numChars, hch]

theorem number_has_zero_lead (neg : Bool) (d0 : Nat) (tl : List Nat)
    (fds : Option (List Nat)) (u : List Char) (hd : d0 < 10) (h0 : d0 ≠ 0) :
    number_has_zero (numChars neg (d0 :: tl) fds ++ u) = true := by
  rw [number_has_zero_true_iff]
  have hdot := digitChar_ne_dot hd
  have hzero := digitChar_ne_zero_char hd h0
  have hdash := digitChar_ne_dash hd
  cases neg <;> simp [numChars, hdot, hzero, hdash]

theorem number_has_zero_two_digits (neg : Bool) (d1 d2 : Nat) (tl : List Nat)
    (fds : Option (List Nat)) (u : List Char) (h1 : d1 < 10) (h2 : d2 < 10) :
    number_has_zero (numChars neg (d1 :: d2 :: tl) fds ++ u) = true := by
  rw [number_has_zero_true_iff]
  have hd1dot := digitChar_ne_dot h1
  have hd2dot := digitChar_ne_dot h2
  have hd1dash := digitChar_ne_dash h1
  cases neg <;> simp [numChars, hd1dot, hd2dot, hd1dash]

theorem number_has_zero_zero_unit (u : List Char) (hu : ∀ c ∈ u, unitChar c = true) :
    number_has_zero (numChars false [0] none ++ u) = true := by
  rw [number_has_zero_true_iff]
  have h0 : numChars false [0] none = ['0'] := by decide
  rw [h0]
  cases u with
  | nil => simp
  | cons c tl =>
    have hc := unitChar_ne_of_mem (hu c (by simp)) (x := '.') (by decide)
    simp [hc]

theorem flag_false_intVal (t : NumText) (hwf : t.wf = true)
    (hz : number_has_zero t.text = false) : digitsToNat t.intDigits = 0 := by
  obtain ⟨hi, hf, hne, hun, hu⟩ := wf_parts t hwf
  rw [NumText.text_eq] at hz
  cases hids : t.intDigits with
  | nil => rfl
  | cons d tl =>
    cases tl with
    | nil =>
      have hd := hi d (by rw [hids]; simp)
      by_cases h0 : d = 0
      · subst h0
        rfl
      · rw [hids, number_has_zero_lead t.neg d [] t.fracDigits t.unit hd h0] at hz
        exact Bool.noConfusion hz
    | cons d2 tl2 =>
      have hd1 := hi d (by rw [hids]; simp)
      have hd2 := hi d2 (by rw [hids]; simp)
      rw [hids,
        number_has_zero_two_digits t.neg d d2 tl2 t.fracDigits t.unit hd1 hd2] at hz
      exact Bool.noConfusion hz

theorem flag_true_len2 (t : NumText) (hz : number_has_zero t.text = true)
    (hA : digitsToNat t.intDigits = 0) (fs : List Nat) (hfs : t.fracDigits = some fs) :
    2 ≤ t.intDigits.length := by
  rw [NumText.text_eq] at hz
  cases hids : t.intDigits with
  | nil =>
    rw [hids, hfs, number_has_zero_dotted] at hz
    exact Bool.noConfusion hz
  | cons d tl =>
    cases tl with
    | nil =>
      have hd0 : d = 0 := by
        rw [hids] at hA
        simpa [digitsToNat_single] using hA
      subst hd0
      rw [hids, hfs, number_has_zero_zero_dot] at hz
      exact Bool.noConfusion hz
    | cons d2 tl2 =>
      simp only [List.length_cons]
      omega

theorem redundant_true (t : NumText) (hA : digitsToNat t.intDigits = 0)
    (hlen : 2 ≤ t.intDigits.length) (fs : List Nat) (hfs : t.fracDigits = some fs)
    (hB : digitsToNat fs ≠ 0) : t.redundant = true := by
  unfold NumText.redundant
  rw [hfs]
  simp [hA, hlen, hB]

theorem redundant_false_of_intVal (t : NumText) (hA : digitsToNat t.intDigits ≠ 0) :
    t.redundant = false := by
  unfold NumText.redundant
  simp [hA]

theorem redundant_false_of_fracVal (t : NumText)
    (hB : ∀ fs, t.fracDigits = some fs → digitsToNat fs = 0) :
    t.redundant = false := by
  unfold NumText.redundant
  cases hfs : t.fracDigits with
  | none => simp
  | some fs => simp [hB fs hfs]

theorem abs_den_eq (q : ℚ) : |q|.den = q.den := by
  rcases abs_choice q with h | h
  · rw [h]
  · rw [h, Rat.neg_den]

theorem den_div_nat (N D : Nat) : ((N : ℚ) / (D : ℚ)).den ∣ D := by
  rw [Rat.natCast_div_eq_divInt]
  have h := Rat.den_dvd (N : ℤ) (D : ℤ)
  exact_mod_cast h

theorem decVal_div (neg : Bool) (ids : List Nat) (fds : Option (List Nat)) :
    decVal neg ids fds = (if neg = true then (-1 : ℚ) else 1) *
      (((digitsToNat ids * 10 ^ fracLen fds + fracVal fds : ℕ) : ℚ) /
        ((10 ^ fracLen fds : ℕ) : ℚ)) := by
  unfold decVal
  congr 1
  cases fds with
  | none => simp [fracLen, fracVal]
  | some fs =>
    simp only [fracLen, fracVal]
    have h10 : ((10 : ℚ)) ^ fs.length ≠ 0 := by positivity
    push_cast
    field_simp

theorem decVal_den_dvd (neg : Bool) (ids : List Nat) (fds : Option (List Nat)) :
    (decVal neg ids fds).den ∣ 10 ^ fracLen fds := by
  rw [decVal_div]
  cases neg with
  | false =>
    rw [show (if (false : Bool) = true then (-1 : ℚ) else 1) = 1 from rfl, one_mul]
    exact den_div_nat _ _
  | true =>
    rw [show (if (true : Bool) = true then (-1 : ℚ) else 1) = -1 from rfl, neg_one_mul,
      Rat.neg_den]
    exact den_div_nat _ _

theorem NumText_den_dvd (t : NumText) : t.val.den ∣ 10 ^ fracLen t.fracDigits := by
  rw [NumText.val_eq]
  exact decVal_den_dvd t.neg t.intDigits t.fracDigits

theorem powOf_one_eq (p : Nat) (hp : 2 ≤ p) : powOf p 1 = 0 := by
  show (if 2 ≤ p ∧ p ∣ 1 ∧ 1 ≠ 0 then 1 + powOfAux p (1 / p) 0 else 0) = 0
  rw [if_neg]
  rintro ⟨-, hd, -⟩
  have h1 := Nat.dvd_one.mp hd
  omega

theorem decExp_den_one {q : ℚ} (h : q.den = 1) : decExp q = 0 := by
  unfold decExp
  rw [h, powOf_one_eq 2 (by omega), powOf_one_eq 5 (by omega)]
  rfl

theorem den_one_of_decExp_zero {q : ℚ} {j : Nat} (hd : q.den ∣ 10 ^ j)
    (h : decExp q = 0) : q.den = 1 := by
  unfold decExp at h
  have h2 : powOf 2 q.den = 0 ∧ powOf 5 q.den = 0 := by omega
  have hden0 : q.den ≠ 0 := q.den_nz
  have hf2 : q.den.factorization 2 = 0 := by
    rw [← powOf_factorization Nat.prime_two hden0]
    omega
  have hf5 : q.den.factorization 5 = 0 := by
    rw [← powOf_factorization Nat.prime_five hden0]
    omega
  have hnd2 : ¬ (2 ∣ q.den) := by
    rcases (Nat.factorization_eq_zero_iff q.den 2).mp hf2 with hx | hx | hx
    · exact absurd Nat.prime_two hx
    · exact hx
    · exact absurd hx hden0
  have hnd5 : ¬ (5 ∣ q.den) := by
    rcases (Nat.factorization_eq_zero_iff q.den 5).mp hf5 with hx | hx | hx
    · exact absurd Nat.prime_five hx
    · exact hx
    · exact absurd hx hden0
  have hc2 : Nat.Coprime q.den 2 :=
    ((Nat.Prime.coprime_iff_not_dvd Nat.prime_two).mpr hnd2).symm
  have hc5 : Nat.Coprime q.den 5 :=
    ((Nat.Prime.coprime_iff_not_dvd Nat.prime_five).mpr hnd5).symm
  have hc10 : Nat.Coprime q.den (10 ^ j) := by
    have hten : Nat.Coprime q.den 10 := by
      rw [show (10 : Nat) = 2 * 5 from rfl]
      exact Nat.Coprime.mul_right hc2 hc5
    exact Nat.Coprime.pow_right j hten
  exact Nat.Coprime.eq_one_of_dvd hc10 hd

theorem mul_pow_den_int {q : ℚ} (hq : 0 ≤ q) {k : Nat} (hd : q.den ∣ 10 ^ k) :
    ((q * (10 : ℚ) ^ k).num.toNat : ℚ) = q * (10 : ℚ) ^ k := by
  obtain ⟨c, hc⟩ := hd
  have hq10 : (10 : ℚ) ^ k = ((q.den : ℚ)) * ((c : ℕ) : ℚ) := by
    rw [show ((10 : ℚ)) = ((10 : ℕ) : ℚ) from by norm_num, ← Nat.cast_pow, hc,
      Nat.cast_mul]
  have hqq : q * (10 : ℚ) ^ k = ((q.num * ((c : ℕ) : ℤ) : ℤ) : ℚ) := by
    rw [hq10, ← mul_assoc, Rat.mul_den_eq_num]
    push_cast
    ring
  rw [hqq, Rat.num_intCast]
  have hnn : (0 : ℤ) ≤ q.num * ((c : ℕ) : ℤ) := by
    have h1 : 0 ≤ q.num := Rat.num_nonneg.mpr hq
    positivity
  exact_mod_cast congrArg (fun z : ℤ => (z : ℚ)) (Int.toNat_of_nonneg hnn)

theorem frds_spec {k fr : Nat} (hfr : fr < 10 ^ k) (hk : 1 ≤ k) :
    (List.replicate (k - (natDigits fr).length) 0 ++ natDigits fr).length = k ∧
    digitsToNat (List.replicate (k - (natDigits fr).length) 0 ++ natDigits fr) = fr ∧
    (∀ d ∈ List.replicate (k - (natDigits fr).length) 0 ++ natDigits fr, d < 10) ∧
    List.replicate (k - (natDigits fr).length) 0 ++ natDigits fr ≠ [] := by
  have hlen : (natDigits fr).length ≤ k := natDigitsAux_length (fr + 1) fr k (by omega) hfr hk
  refine ⟨?_, (digitsToNat_replicate_zero _ _).trans (natDigits_val fr), ?_, ?_⟩
  · simp only [List.length_append, List.length_replicate]
    omega
  · intro d hd
    rcases List.mem_append.mp hd with hd | hd
    · rw [List.eq_of_mem_replicate hd]
      omega
    · exact natDigits_lt fr d hd
  · intro hc
    rcases List.append_eq_nil.mp hc with ⟨-, h2⟩
    exact natDigits_ne_nil fr h2

theorem NumText_wf_intro (b : Bool) (ids : List Nat) (fds : Option (List Nat)) (u : List Char)
    (hi : ∀ d ∈ ids, d < 10)
    (hf : ∀ fs, fds = some fs → (∀ d ∈ fs, d < 10) ∧ fs ≠ [])
    (hne : ids = [] → fds ≠ none)
    (hun : u ≠ []) (hu : ∀ c ∈ u, unitChar c = true) :
    (NumText.mk b ids fds u).wf = true := by
  simp only [NumText.wf]
  simp only [Bool.and_eq_true]
  refine ⟨⟨⟨⟨?_, ?_⟩, ?_⟩, ?_⟩, ?_⟩
  · simp only [List.all_eq_true, decide_eq_true_eq]
    exact hi
  · cases hfs : fds with
    | none => rfl
    | some fs =>
      obtain ⟨h1, h2⟩ := hf fs hfs
      simp only [Bool.and_eq_true, List.all_eq_true, decide_eq_true_eq, Bool.not_eq_true']
      exact ⟨h1, by simpa using h2⟩
  · cases hids : ids with
    | nil =>
      cases hfs : fds with
      | none => exact absurd hfs (hne hids)
      | some fs => simp
    | cons d tl => simp
  · simp only [Bool.not_eq_true']
    simpa using hun
  · simp only [List.all_eq_true]
    exact fun c hc => hu c hc

theorem renderDecomp_eq (v : ℚ) (u : List Char) (z : Bool) :
    renderDecomp v u z =
      (if z = false ∧ (|v| * (10 : ℚ) ^ decExp |v|).num.toNat / 10 ^ decExp |v| = 0 then
        NumText.mk (decide (v < 0)) []
          (some (if decExp |v| = 0 then [0]
            else List.replicate (decExp |v| -
              (natDigits ((|v| * (10 : ℚ) ^ decExp |v|).num.toNat %
                10 ^ decExp |v|)).length) 0 ++
              natDigits ((|v| * (10 : ℚ) ^ decExp |v|).num.toNat % 10 ^ decExp |v|))) u
      else
        NumText.mk (decide (v < 0))
          (natDigits ((|v| * (10 : ℚ) ^ decExp |v|).num.toNat / 10 ^ decExp |v|))
          (if decExp |v| = 0 then none
           else some (List.replicate (decExp |v| -
              (natDigits ((|v| * (10 : ℚ) ^ decExp |v|).num.toNat %
                10 ^ decExp |v|)).length) 0 ++
              natDigits ((|v| * (10 : ℚ) ^ decExp |v|).num.toNat % 10 ^ decExp |v|))) u) :=
  rfl

theorem renderDecomp_core (v : ℚ) (u : List Char) (z : Bool) (j : Nat)
    (hdvd : v.den ∣ 10 ^ j) (hune : u ≠ []) (huc : ∀ c ∈ u, unitChar c = true) :
    (renderDecomp v u z).wf = true ∧ (renderDecomp v u z).val = v ∧
    (renderDecomp v u z).unit = u := by
  have ha0 : (0 : ℚ) ≤ |v| := abs_nonneg v
  have hadvd : |v|.den ∣ 10 ^ j := by rw [abs_den_eq]; exact hdvd
  have hkdvd : |v|.den ∣ 10 ^ decExp |v| := dvd_ten_max (|v|).den_nz hadvd
  have hm0 := mul_pow_den_int ha0 hkdvd
  rw [renderDecomp_eq]
  set k := decExp |v| with hkdef
  set m := (|v| * (10 : ℚ) ^ k).num.toNat with hmdef
  set ip := m / 10 ^ k with hipdef
  set fr := m % 10 ^ k with hfrdef
  set frds := List.replicate (k - (natDigits fr).length) 0 ++ natDigits fr with hfrdsdef
  have h10 : (0 : ℕ) < 10 ^ k := by positivity
  have h10q : ((10 : ℚ)) ^ k ≠ 0 := by positivity
  have hsplit : ip * 10 ^ k + fr = m := by
    rw [hipdef, hfrdef, Nat.mul_comm]
    exact Nat.div_add_mod m (10 ^ k)
  have hfrlt : fr < 10 ^ k := Nat.mod_lt _ h10
  have habs : |v| = (m : ℚ) / (10 : ℚ) ^ k := by
    rw [hm0]
    field_simp
  have hsign : ∀ mag : ℚ, mag = |v| → (if decide (v < 0) = true then -mag else mag) = v := by
    intro mag hmag
    subst hmag
    by_cases hv : v < 0
    · rw [if_pos (by simpa using hv), abs_of_neg hv, neg_neg]
    · rw [if_neg (by simpa using hv), abs_of_nonneg (le_of_not_lt hv)]
  split_ifs with hcase hk0 hk0e
  · -- z = false, ip = 0, k = 0: the value is 0 and renders as ".0"-style text
    have hpk : (10 : ℚ) ^ k = 1 := by rw [hk0]; norm_num
    have hm_eq : (m : ℚ) = |v| := by rw [hm0, hpk, mul_one]
    have hip_eq : ip = m := by rw [hipdef, hk0, pow_zero, Nat.div_one]
    have hm_zero : m = 0 := by omega
    have hv_abs : |v| = 0 := by
      rw [← hm_eq, hm_zero]
      norm_num
    have hv0 : v = 0 := abs_eq_zero.mp hv_abs
    refine ⟨?_, ?_, rfl⟩
    · refine NumText_wf_intro _ _ _ _ (by simp) ?_ (fun _ => by simp) hune huc
      rintro fs hfs
      injection hfs with h
      subst h
      exact ⟨by intro d hd; simp at hd; omega, by simp⟩
    · subst hv0
      simp [NumText.val, digitsToNat]
  · -- z = false, ip = 0, k ≠ 0: a pure fraction ".ddd"
    have hk1 : 1 ≤ k := by omega
    obtain ⟨hl, hv, hd, hne'⟩ := frds_spec hfrlt hk1
    rw [← hfrdsdef] at hl hv hd hne'
    have hm_fr : fr = m := by
      have h0 := hcase.2
      rw [h0] at hsplit
      simpa using hsplit
    refine ⟨?_, ?_, rfl⟩
    · refine NumText_wf_intro _ _ _ _ (by simp) ?_ (fun _ => by simp) hune huc
      rintro fs hfs
      injection hfs with h
      subst h
      exact ⟨hd, hne'⟩
    · simp only [NumText.val]
      apply hsign
      have hz : (digitsToNat ([] : List Nat) : ℚ) = 0 := by simp [digitsToNat]
      rw [hz, zero_add, hv, hl, hm_fr]
      exact habs.symm
  · -- ip ≠ 0 or z = true, k = 0: integral value
    have hpk : (10 : ℚ) ^ k = 1 := by rw [hk0e]; norm_num
    have hm_eq : (m : ℚ) = |v| := by rw [hm0, hpk, mul_one]
    have hip_eq : ip = m := by rw [hipdef, hk0e, pow_zero, Nat.div_one]
    refine ⟨?_, ?_, rfl⟩
    · refine NumText_wf_intro _ _ _ _ (natDigits_lt ip) (fun fs hfs => by cases hfs) ?_
        hune huc
      intro hc
      exact absurd hc (natDigits_ne_nil ip)
    · simp only [NumText.val]
      apply hsign
      rw [natDigits_val ip, hip_eq, add_zero, hm_eq]
  · -- ip ≥ 1 or z = true, k ≠ 0: integer digits, dot, fraction digits
    have hk1 : 1 ≤ k := by omega
    obtain ⟨hl, hv, hd, hne'⟩ := frds_spec hfrlt hk1
    rw [← hfrdsdef] at hl hv hd hne'
    refine ⟨?_, ?_, rfl⟩
    · refine NumText_wf_intro _ _ _ _ (natDigits_lt ip) ?_ ?_ hune huc
      · rintro fs hfs
        injection hfs with h
        subst h
        exact ⟨hd, hne'⟩
      · intro hc
        exact absurd hc (natDigits_ne_nil ip)
    · simp only [NumText.val]
      apply hsign
      rw [natDigits_val ip, hv, hl]
      have harith : (ip : ℚ) + (fr : ℚ) / (10 : ℚ) ^ k = (m : ℚ) / (10 : ℚ) ^ k := by
        rw [← hsplit]
        push_cast
        field_simp
      rw [harith]
      exact habs.symm

theorem renderDecomp_ip_zero_iff (v : ℚ) (j : Nat) (hdvd : v.den ∣ 10 ^ j) :
    ((|v| * (10 : ℚ) ^ decExp |v|).num.toNat / 10 ^ decExp |v| = 0) ↔ |v| < 1 := by
  have ha0 : (0 : ℚ) ≤ |v| := abs_nonneg v
  have hadvd : |v|.den ∣ 10 ^ j := by rw [abs_den_eq]; exact hdvd
  have hkdvd : |v|.den ∣ 10 ^ decExp |v| := dvd_ten_max (|v|).den_nz hadvd
  have hm0 := mul_pow_den_int ha0 hkdvd
  have h10 : (0 : ℕ) < 10 ^ decExp |v| := by positivity
  have h10q : (0 : ℚ) < (10 : ℚ) ^ decExp |v| := by positivity
  rw [Nat.div_eq_zero_iff h10]
  constructor
  · intro hlt
    have hq : ((|v| * (10 : ℚ) ^ decExp |v|).num.toNat : ℚ) < (10 : ℚ) ^ decExp |v| := by
      calc ((|v| * (10 : ℚ) ^ decExp |v|).num.toNat : ℚ)
          < ((10 ^ decExp |v| : ℕ) : ℚ) := by exact_mod_cast hlt
        _ = (10 : ℚ) ^ decExp |v| := by push_cast; ring
    rw [hm0] at hq
    exact (mul_lt_iff_lt_one_left h10q).mp hq
  · intro hlt
    have hq : |v| * (10 : ℚ) ^ decExp |v| < (10 : ℚ) ^ decExp |v| :=
      (mul_lt_iff_lt_one_left h10q).mpr hlt
    rw [← hm0] at hq
    have : ((|v| * (10 : ℚ) ^ decExp |v|).num.toNat : ℚ) < ((10 ^ decExp |v| : ℕ) : ℚ) := by
      calc ((|v| * (10 : ℚ) ^ decExp |v|).num.toNat : ℚ)
          < (10 : ℚ) ^ decExp |v| := hq
        _ = ((10 ^ decExp |v| : ℕ) : ℚ) := by push_cast; ring
    exact_mod_cast this

theorem renderDecomp_flag_small_false (v : ℚ) (u : List Char) (j : Nat)
    (hdvd : v.den ∣ 10 ^ j) (hsmall : |v| < 1) :
    number_has_zero (renderDecomp v u false).text = false := by
  rw [renderDecomp_eq,
    if_pos ⟨rfl, (renderDecomp_ip_zero_iff v j hdvd).mpr hsmall⟩, NumText.text_eq]
  exact number_has_zero_dotted _ _ u

theorem renderDecomp_flag_big_true (v : ℚ) (u : List Char) (z : Bool) (j : Nat)
    (hdvd : v.den ∣ 10 ^ j) (hbig : 1 ≤ |v|) :
    number_has_zero (renderDecomp v u z).text = true := by
  have hipne : ¬ ((|v| * (10 : ℚ) ^ decExp |v|).num.toNat / 10 ^ decExp |v| = 0) := by
    rw [renderDecomp_ip_zero_iff v j hdvd]
    exact not_lt.mpr hbig
  rw [renderDecomp_eq, if_neg (by rintro ⟨-, h2⟩; exact hipne h2), NumText.text_eq]
  set ip := (|v| * (10 : ℚ) ^ decExp |v|).num.toNat / 10 ^ decExp |v| with hipdef
  obtain ⟨d0, tl, hips⟩ : ∃ d0 tl, natDigits ip = d0 :: tl := by
    cases hx : natDigits ip with
    | nil => exact absurd hx (natDigits_ne_nil ip)
    | cons d0 tl => exact ⟨d0, tl, rfl⟩
  have hd0lt : d0 < 10 := natDigits_lt ip d0 (by rw [hips]; simp)
  have hd0ne : d0 ≠ 0 := by
    have hh := natDigitsAux_head_pos (ip + 1) ip (by omega) (Nat.pos_of_ne_zero hipne)
    rw [show natDigitsAux ip (ip + 1) = natDigits ip from rfl, hips] at hh
    simpa using hh
  rw [hips]
  exact number_has_zero_lead _ d0 tl _ u hd0lt hd0ne

theorem renderDecomp_flag_zero_true (u : List Char) (hu : ∀ c ∈ u, unitChar c = true) :
    number_has_zero (renderDecomp 0 u true).text = true := by
  have hk : decExp (0 : ℚ) = 0 := decExp_den_one Rat.den_zero
  have hm : ((|(0 : ℚ)| * (10 : ℚ) ^ decExp |(0 : ℚ)|).num.toNat / 10 ^ decExp |(0 : ℚ)|) =
      0 := by
    simp [Rat.num_zero]
  rw [renderDecomp_eq, if_neg (by rintro ⟨h1, -⟩; exact Bool.noConfusion h1), NumText.text_eq]
  rw [hm, show natDigits 0 = [0] from rfl]
  rw [show decExp |(0 : ℚ)| = 0 from by rw [abs_zero]; exact hk]
  rw [if_pos rfl]
  have hneg : decide ((0 : ℚ) < 0) = false := by simp
  rw [hneg]
  exact number_has_zero_zero_unit u hu

theorem renderDecomp_flag_flip_false (v : ℚ) (u : List Char) (j : Nat)
    (hdvd : v.den ∣ 10 ^ j) (hsmall : |v| < 1) (hv0 : v ≠ 0) :
    number_has_zero (renderDecomp v u true).text = false := by
  have hip0 : (|v| * (10 : ℚ) ^ decExp |v|).num.toNat / 10 ^ decExp |v| = 0 :=
    (renderDecomp_ip_zero_iff v j hdvd).mpr hsmall
  have hkne : decExp |v| ≠ 0 := by
    intro hk0
    have hden1 : |v|.den = 1 :=
      den_one_of_decExp_zero (by rw [abs_den_eq]; exact hdvd) hk0
    have hint : ((|v|).num : ℚ) = |v| := (Rat.den_eq_one_iff |v|).mp hden1
    have hnum0 : (|v|).num = 0 := by
      have hlt : ((|v|).num : ℚ) < 1 := by rw [hint]; exact hsmall
      have hge : (0 : ℚ) ≤ ((|v|).num : ℚ) := by rw [hint]; exact abs_nonneg v
      have h1 : (|v|).num < 1 := by exact_mod_cast hlt
      have h2 : 0 ≤ (|v|).num := by exact_mod_cast hge
      omega
    have : |v| = 0 := by
      rw [← hint, hnum0]
      norm_num
    exact hv0 (abs_eq_zero.mp this)
  rw [renderDecomp_eq, if_neg (by rintro ⟨h1, -⟩; exact Bool.noConfusion h1), NumText.text_eq]
  rw [hip0, show natDigits 0 = [0] from rfl, if_neg hkne]
  exact number_has_zero_zero_dot _ _ u

theorem decVal_abs (neg : Bool) (ids : List Nat) (fds : Option (List Nat)) :
    |decVal neg ids fds| =
      (digitsToNat ids : ℚ) + (fracVal fds : ℚ) / (10 : ℚ) ^ fracLen fds := by
  have hmag : (0 : ℚ) ≤ (digitsToNat ids : ℚ) +
      (fracVal fds : ℚ) / (10 : ℚ) ^ fracLen fds := by positivity
  have hbody : decVal neg ids fds = (if neg = true then (-1 : ℚ) else 1) *
      ((digitsToNat ids : ℚ) + (fracVal fds : ℚ) / (10 : ℚ) ^ fracLen fds) := by
    unfold decVal
    congr 1
    cases fds with
    | none => simp [fracVal, fracLen]
    | some fs => simp [fracVal, fracLen]
  rw [hbody]
  cases neg with
  | false => rw [if_neg (by simp), one_mul, abs_of_nonneg hmag]
  | true => rw [if_pos rfl, neg_one_mul, abs_neg, abs_of_nonneg hmag]

theorem fracVal_lt (fds : Option (List Nat))
    (hfd : ∀ fs, fds = some fs → ∀ d ∈ fs, d < 10) :
    (fracVal fds : ℚ) / (10 : ℚ) ^ fracLen fds < 1 := by
  cases fds with
  | none => norm_num [fracVal, fracLen]
  | some fs =>
    have hlt := digitsToNat_lt fs (hfd fs rfl)
    simp only [fracVal, fracLen]
    rw [div_lt_one (by positivity)]
    exact_mod_cast hlt

theorem NumText_val_facts (t : NumText) (h : t.wf = true) :
    (|t.val| < 1 ↔ digitsToNat t.intDigits = 0) ∧
    (t.val = 0 ↔ digitsToNat t.intDigits = 0 ∧ fracVal t.fracDigits = 0) := by
  obtain ⟨hi, hf, hne, -, -⟩ := wf_parts t h
  have hfd : ∀ fs, t.fracDigits = some fs → ∀ d ∈ fs, d < 10 :=
    fun fs hfs => (hf fs hfs).1
  have habs : |t.val| = (digitsToNat t.intDigits : ℚ) +
      (fracVal t.fracDigits : ℚ) / (10 : ℚ) ^ fracLen t.fracDigits := by
    rw [NumText.val_eq]
    exact decVal_abs t.neg t.intDigits t.fracDigits
  have hfrac_lt := fracVal_lt t.fracDigits hfd
  have hfrac_nn : (0 : ℚ) ≤ (fracVal t.fracDigits : ℚ) /
      (10 : ℚ) ^ fracLen t.fracDigits := by positivity
  have hA_nn : (0 : ℚ) ≤ (digitsToNat t.intDigits : ℚ) := Nat.cast_nonneg _
  constructor
  · constructor
    · intro hlt
      by_contra hA
      have hA1 : (1 : ℚ) ≤ (digitsToNat t.intDigits : ℚ) := by
        exact_mod_cast Nat.one_le_iff_ne_zero.mpr hA
      rw [habs] at hlt
      linarith
    · intro hA
      rw [habs, hA]
      simpa using hfrac_lt
  · constructor
    · intro hv0
      have h0 : (digitsToNat t.intDigits : ℚ) +
          (fracVal t.fracDigits : ℚ) / (10 : ℚ) ^ fracLen t.fracDigits = 0 := by
        rw [← habs, hv0, abs_zero]
      have hA : (digitsToNat t.intDigits : ℚ) = 0 := by linarith
      have hFq : (fracVal t.fracDigits : ℚ) / (10 : ℚ) ^ fracLen t.fracDigits = 0 := by
        linarith
      have hF : (fracVal t.fracDigits : ℚ) = 0 := by
        have h10 : ((10 : ℚ)) ^ fracLen t.fracDigits ≠ 0 := by positivity
        field_simp at hFq
        exact_mod_cast hFq
      exact ⟨by exact_mod_cast hA, by exact_mod_cast hF⟩
    · rintro ⟨hA, hB⟩
      have h0 : |t.val| = 0 := by
        rw [habs, hA, hB]
        norm_num
      exact abs_eq_zero.mp h0

theorem renderDecomp_spec (t : NumText) (h : t.wf = true) :
    (renderDecomp t.val t.unit (number_has_zero t.text)).wf = true ∧
    (renderDecomp t.val t.unit (number_has_zero t.text)).val = t.val ∧
    (renderDecomp t.val t.unit (number_has_zero t.text)).unit = t.unit ∧
    number_has_zero (renderDecomp t.val t.unit (number_has_zero t.text)).text =
      (number_has_zero t.text && ! t.redundant) := by
  obtain ⟨hi, hf, hne, hun, hu⟩ := wf_parts t h
  have hdvd := NumText_den_dvd t
  obtain ⟨hwf2, hval2, hunit2⟩ :=
    renderDecomp_core t.val t.unit (number_has_zero t.text) _ hdvd hun hu
  obtain ⟨hiff1, hiff2⟩ := NumText_val_facts t h
  refine ⟨hwf2, hval2, hunit2, ?_⟩
  by_cases hz : number_has_zero t.text = false
  · rw [hz]
    have hA := flag_false_intVal t h hz
    have hsmall : |t.val| < 1 := hiff1.mpr hA
    rw [renderDecomp_flag_small_false t.val t.unit _ hdvd hsmall]
    simp
  · have hz' : number_has_zero t.text = true := by
      revert hz
      cases number_has_zero t.text <;> simp
    rw [hz']
    by_cases hA : digitsToNat t.intDigits = 0
    · by_cases hB : fracVal t.fracDigits = 0
      · have hv0 : t.val = 0 := hiff2.mpr ⟨hA, hB⟩
        rw [hv0, renderDecomp_flag_zero_true t.unit hu]
        have hred : t.redundant = false := by
          refine redundant_false_of_fracVal t ?_
          intro fs hfs
          have hB2 := hB
          rw [hfs] at hB2
          simpa [fracVal] using hB2
        rw [hred]
        simp
      · have hv0 : t.val ≠ 0 := fun hc => hB (hiff2.mp hc).2
        have hsmall : |t.val| < 1 := hiff1.mpr hA
        rw [renderDecomp_flag_flip_false t.val t.unit _ hdvd hsmall hv0]
        obtain ⟨fs, hfs⟩ : ∃ fs, t.fracDigits = some fs := by
          cases hx : t.fracDigits with
          | none =>
            refine absurd ?_ hB
            rw [hx]
            rfl
          | some fs => exact ⟨fs, rfl⟩
        have hBfs : digitsToNat fs ≠ 0 := by
          intro hc
          apply hB
          rw [hfs]
          simpa [fracVal] using hc
        have hlen := flag_true_len2 t hz' hA fs hfs
        have hred := redundant_true t hA hlen fs hfs hBfs
        rw [hred]
        simp
    · have hbig : (1 : ℚ) ≤ |t.val| := by
        by_contra hc
        exact hA (hiff1.mp (lt_of_not_le hc))
      rw [renderDecomp_flag_big_true t.val t.unit true _ hdvd hbig,
        redundant_false_of_intVal t hA]
      simp

theorem lexed_render_node (v : ℚ) (u : List Char) (z : Bool) (j : Nat)
    (hdvd : v.den ∣ 10 ^ j) (hune : u ≠ []) (huc : ∀ c ∈ u, unitChar c = true) :
    lexed_dimension ((renderDecomp v u z).text) = .number v u (rendered_flag v z) true := by
  obtain ⟨hwf2, hval2, hunit2⟩ := renderDecomp_core v u z j hdvd hune huc
  have hflag : number_has_zero (renderDecomp v u z).text = rendered_flag v z := by
    unfold rendered_flag
    by_cases hbig : 1 ≤ |v|
    · rw [if_pos hbig]
      exact renderDecomp_flag_big_true v u z j hdvd hbig
    · rw [if_neg hbig]
      have hsmall : |v| < 1 := lt_of_not_le hbig
      by_cases hv0 : v = 0
      · rw [if_pos hv0]
        subst hv0
        cases z with
        | true => exact renderDecomp_flag_zero_true u huc
        | false => exact renderDecomp_flag_small_false 0 u j hdvd hsmall
      · rw [if_neg hv0]
        cases z with
        | true => exact renderDecomp_flag_flip_false v u j hdvd hsmall hv0
        | false => exact renderDecomp_flag_small_false v u j hdvd hsmall
  rw [lexed_dimension_decomp _ hwf2, hval2, hunit2, hflag]

/-- C7 (amended): the stored leading-zero flag is `false` exactly for lexed
texts beginning `.`, `0.`, `-.` or `-0.` (conjunct 1, the claim's
`number_has_zero` characterization).  A parsed dimension `Number` keeps only
value, unit and flag, so for every such node (any value a `strtod` parse can
produce — denominator dividing a power of ten — and a nonempty unit token of
non-number, non-space characters), re-lexing its rendered textual form
always restores the value and the unit token, with the flag of the rendered
decimal form, and restores the stored flag exactly when that flag agrees
with the value's own leading-zero status — true for `|v| ≥ 1` or `v = 0`,
false for `0 < |v| < 1` (conjunct 2).  Scientific-notation texts fall on the
failing side: `2e-1px` lexes to value 1/5 with flag true, and re-lexing its
rendered form yields the same value and unit with flag false (conjunct 3). -/
theorem C7_number_roundtrip_amended :
    (∀ s : List Char, number_has_zero s = false ↔
      (s.take 1 = ['.'] ∨ s.take 2 = ['0', '.'] ∨ s.take 2 = ['-', '.'] ∨
       s.take 3 = ['-', '0', '.'])) ∧
    (∀ (v : ℚ) (u : List Char) (z d : Bool) (j : Nat),
      v.den ∣ 10 ^ j → u ≠ [] → (∀ c ∈ u, unitChar c = true) →
      (lexed_dimension (renderText (.number v u z d)) =
        .number v u (rendered_flag v z) true) ∧
      (lexed_dimension (renderText (.number v u z d)) = .number v u z true ↔
        rendered_flag v z = z)) ∧
    (lexed_dimension ("2e-1px".toList) = .number (1 / 5 : ℚ) ['p', 'x'] true true ∧
     lexed_dimension (renderText (lexed_dimension ("2e-1px".toList))) =
       .number (1 / 5 : ℚ) ['p', 'x'] false true) := by
  have hmain : ∀ (v : ℚ) (u : List Char) (z d : Bool) (j : Nat),
      v.den ∣ 10 ^ j → u ≠ [] → (∀ c ∈ u, unitChar c = true) →
      (lexed_dimension (renderText (.number v u z d)) =
        .number v u (rendered_flag v z) true) ∧
      (lexed_dimension (renderText (.number v u z d)) = .number v u z true ↔
        rendered_flag v z = z) := by
    intro v u z d j hdvd hune huc
    have hrt : renderText (.number v u z d) = (renderDecomp v u z).text := rfl
    have hnode := lexed_render_node v u z j hdvd hune huc
    refine ⟨by rw [hrt]; exact hnode, ?_⟩
    constructor
    · intro heq
      rw [hrt, hnode] at heq
      simp only [Expression.number.injEq] at heq
      exact heq.2.2.1
    · intro hflageq
      rw [hrt, hnode, hflageq]
  refine ⟨number_has_zero_iff, hmain, ?_⟩
  have hlex : lexed_dimension ("2e-1px".toList) =
      .number (1 / 5 : ℚ) ['p', 'x'] true true := by
    simp [lexed_dimension, findFirstNotOf, numberMatchLen, expLen, sass_strtod, digitsVal,
      digitVal, isSpaceChar, spaceSet, numSet, charAt, isNumberChar, number_has_zero,
      splitSign, headIs, signLen, readExponent]
    norm_num
  refine ⟨hlex, ?_⟩
  rw [hlex]
  have hden : ((1 / 5 : ℚ)).den ∣ 10 ^ 1 := by
    have h1 : (1 / 5 : ℚ) = ((1 : ℕ) : ℚ) / ((5 : ℕ) : ℚ) := by norm_num
    rw [h1]
    exact (den_div_nat 1 5).trans (by norm_num)
  have hv5 : rendered_flag (1 / 5 : ℚ) true = false := by
    unfold rendered_flag
    rw [abs_of_pos (show (0 : ℚ) < 1 / 5 by norm_num)]
    norm_num
  have := (hmain (1 / 5 : ℚ) ['p', 'x'] true true 1 hden (by decide) (by decide)).1
  rw [this, hv5]

/-- C7, witness for the amended round-trip: the node for a lexed `16px`
(value 16, unit `px`, flag true) satisfies the hypotheses, and re-lexing its
rendered form restores the value and unit with the rendered flag. -/
theorem C7_number_roundtrip_amended_witness :
    (16 : ℚ).den ∣ 10 ^ 0 ∧ (['p', 'x'] : List Char) ≠ [] ∧
    (∀ c ∈ (['p', 'x'] : List Char), unitChar c = true) ∧
    lexed_dimension (renderText (.number (16 : ℚ) ['p', 'x'] true true)) =
      .number (16 : ℚ) ['p', 'x'] (rendered_flag 16 true) true :=
  ⟨by simp, by decide, by decide,
    (C7_number_roundtrip_amended.2.1 16 ['p', 'x'] true true 0 (by simp) (by decide)
      (by decide)).1⟩

/-- C7, counterexample: lexing `00.5px` stores the leading-zero flag `true`
(the text does not begin with `.`, `0.`, `-.` or `-0.`), but the node's
rendered textual form re-lexes to a `Number` with the same value and unit
and flag `false`: the redundant leading zero of the source text cannot
round-trip through the node, so re-parsing does not restore the flag. -/
theorem C7_leading_zero_not_roundtripped :
    lexed_dimension ("00.5px".toList) =
      .number (NumText.mk false [0, 0] (some [5]) ['p', 'x']).val ['p', 'x'] true true ∧
    lexed_dimension (renderText (lexed_dimension ("00.5px".toList))) =
      .number (NumText.mk false [0, 0] (some [5]) ['p', 'x']).val ['p', 'x'] false true ∧
    lexed_dimension (renderText (lexed_dimension ("00.5px".toList))) ≠
      lexed_dimension ("00.5px".toList) := by
  have htext : "00.5px".toList = (NumText.mk false [0, 0] (some [5]) ['p', 'x']).text := by
    decide
  have hwf : (NumText.mk false [0, 0] (some [5]) ['p', 'x']).wf = true := by decide
  set t0 : NumText := NumText.mk false [0, 0] (some [5]) ['p', 'x'] with ht0
  have hdec := lexed_dimension_decomp t0 hwf
  have hunit : t0.unit = ['p', 'x'] := rfl
  have hz : number_has_zero t0.text = true := by decide
  have hred : t0.redundant = true := by decide
  have h1 : lexed_dimension ("00.5px".toList) = .number t0.val ['p', 'x'] true true := by
    rw [htext, hdec, hunit, hz]
  obtain ⟨hwf2, hval2, hunit2, hflag2⟩ := renderDecomp_spec t0 hwf
  have h2 : lexed_dimension (renderText (lexed_dimension ("00.5px".toList))) =
      .number t0.val ['p', 'x'] false true := by
    rw [htext, hdec]
    rw [show renderText (.number t0.val t0.unit (number_has_zero t0.text) true) =
      (renderDecomp t0.val t0.unit (number_has_zero t0.text)).text from rfl]
    rw [lexed_dimension_decomp _ hwf2, hval2, hunit2, hflag2, hred, hz, hunit]
    rfl
  refine ⟨h1, h2, ?_⟩
  rw [h2, h1]
  simp

end LibSass
